import Mathlib

/-!
Verification of `tools/pfif-tools/app/pfif_diff.py` (Person Finder PFIF diff
tool).  The Python module canonicalizes two PFIF XML documents into record
maps (record key → field name → field value) and diffs the two maps into a
list of categorized change messages.  Python dicts are embedded as
association lists in insertion order with unique keys maintained by
`dictInsert`; Python strings are Lean `String`s; the external XML tree reader
(`utils.PfifXmlTree`) is modelled from the spec's external-interface section.
-/

namespace PfifDiff

/-- A parsed XML element as the external tree reader exposes it: a tag name
(already stripped of its XML namespace, as `utils.extract_tag` does), optional
text content, and the list of child elements.  Modelled from the spec's
external-interface description of the parsing layer. -/
inductive Node : Type where
  | mk (tag : String) (text : Option String) (children : List Node)

def Node.tag : Node → String
  | .mk t _ _ => t

def Node.text : Node → Option String
  | .mk _ x _ => x

def Node.children : Node → List Node
  | .mk _ _ c => c

/-- A Python dict from field name to field value: an association list in
insertion order, keys kept unique by `dictInsert`. -/
abbrev FieldMap := List (String × String)

/-- The canonical form of one document: Python dict from record key to field
map. -/
abbrev RecordMap := List (String × FieldMap)

/-- Python dict assignment `d[k] = v`: replace the value at an existing key in
place, else append the new binding at the end. -/
def dictInsert {α : Type} (m : List (String × α)) (k : String) (v : α) :
    List (String × α) :=
  match m with
  | [] => [(k, v)]
  | (k0, v0) :: rest => if k0 = k then (k, v) :: rest else (k0, v0) :: dictInsert rest k v

/-- Python `d.get(k)`: the value at the first (unique) binding of `k`, if any. -/
def dictGet {α : Type} (m : List (String × α)) (k : String) : Option α :=
  match m with
  | [] => none
  | (k0, v0) :: rest => if k0 = k then some v0 else dictGet rest k

/-- Source constant `PERSON_PREFIX = 'p'` (the name here is shortened). -/
def PERSON_MARK : String := "p"

/-- Source constant `NOTE_PREFIX = 'n'` (the name here is shortened). -/
def NOTE_MARK : String := "n"

/-- Source `record_id_to_key`: mark a raw record id with its kind so persons
and notes can share one map. -/
def record_id_to_key (record_id : String) (isPerson : Bool) : String :=
  if isPerson then PERSON_MARK ++ record_id else NOTE_MARK ++ record_id

/-- Source `is_key_person`: `key.startswith(PERSON_PREFIX)`.  Python
`startswith` is the prefix test on the character sequence, embedded here on
`String.data`. -/
def is_key_person (key : String) : Bool :=
  PERSON_MARK.data.isPrefixOf key.data

/-- Source `key_to_record_id`: `key[1:]`, undoing `record_id_to_key`. -/
def key_to_record_id (key : String) : String :=
  key.drop 1

/-- Modelled from the spec: the five change-message categories. -/
inductive Category : Type where
  | DELETED_RECORD
  | ADDED_RECORD
  | DELETED_FIELD
  | ADDED_FIELD
  | CHANGED_FIELD
deriving DecidableEq

/-- Modelled from the spec: `utils.Message` is pure data carrying a category,
the record key decomposed back into kind and raw identifier (exactly one of
the two id fields is set), an optional field name and an optional payload. -/
structure Message : Type where
  category : Category
  person_record_id : Option String
  note_record_id : Option String
  extra_data : Option String
  xml_tag : Option String
deriving DecidableEq

/-- Source `make_diff_message`: decompose the composite key and build the
message. -/
def make_diff_message (category : Category) (record_id : String)
    (extra_data : Option String) (xml_tag : Option String) : Message :=
  if is_key_person record_id then
    Message.mk category (some (key_to_record_id record_id)) none extra_data xml_tag
  else
    Message.mk category none (some (key_to_record_id record_id)) extra_data xml_tag

/-- The payload string built at source line 179 for a changed field. -/
def changed_payload (value_a value_b : String) : String :=
  "A:\"" ++ value_a ++ "\" is now B:\"" ++ value_b ++ "\""

/-- Python `str.lower()`: the per-character lowercase fold, embedded on the
character sequence. -/
def str_lower (s : String) : String :=
  String.mk (s.data.map Char.toLower)

/-- The conditional case fold of source lines 175-177: each value is replaced
by `value.lower()` exactly when comparison is case-insensitive. -/
def fold_case (text_is_case_sensitive : Bool) (v : String) : String :=
  if text_is_case_sensitive then v else str_lower v

/-- The body of the per-field loop of `pfif_obj_diff` (source lines 169-182)
for one field of record A: deleted field, or changed value after the optional
case fold. -/
def diff_one_field (record : String) (field_map_b : FieldMap)
    (text_is_case_sensitive : Bool) (fv : String × String) : List Message :=
  match dictGet field_map_b fv.1 with
  | none => [make_diff_message .DELETED_FIELD record none (some fv.1)]
  | some vb =>
    if fold_case text_is_case_sensitive fv.2 ≠ fold_case text_is_case_sensitive vb then
      [make_diff_message .CHANGED_FIELD record
        (some (changed_payload (fold_case text_is_case_sensitive fv.2)
          (fold_case text_is_case_sensitive vb)))
        (some fv.1)]
    else []

/-- The per-record field comparison loops of `pfif_obj_diff` (source lines
169-186): deleted fields, changed values, then added fields. -/
def field_map_diff (record : String) (field_map_a field_map_b : FieldMap)
    (text_is_case_sensitive : Bool) : List Message :=
  (field_map_a.flatMap (diff_one_field record field_map_b text_is_case_sensitive)) ++
  (field_map_b.filterMap fun fv =>
    if dictGet field_map_a fv.1 = none then
      some (make_diff_message .ADDED_FIELD record none (some fv.1))
    else none)

/-- The body of the per-record loop of `pfif_obj_diff` (source lines 163-186)
for one record of A: deleted record, or the field-level comparison. -/
def diff_one_record (records_b : RecordMap) (text_is_case_sensitive : Bool)
    (rf : String × FieldMap) : List Message :=
  match dictGet records_b rf.1 with
  | none => [make_diff_message .DELETED_RECORD rf.1 none none]
  | some field_map_b => field_map_diff rf.1 rf.2 field_map_b text_is_case_sensitive

/-- Source `pfif_obj_diff` (lines 151-190). -/
def pfif_obj_diff (records_a records_b : RecordMap) (text_is_case_sensitive : Bool) :
    List Message :=
  (records_a.flatMap (diff_one_record records_b text_is_case_sensitive)) ++
  (records_b.filterMap fun rf =>
    if dictGet records_a rf.1 = none then
      some (make_diff_message .ADDED_RECORD rf.1 none none)
    else none)

/-- The identifier tag chosen at source lines 88-91. -/
def record_id_tag (isPerson : Bool) : String :=
  if isPerson then "person_record_id" else "note_record_id"

/-- The diagnostic printed at source line 96 for a record with no identifier. -/
def missing_id_message (isPerson : Bool) : String :=
  "Invalid PFIF XML: a record is missing its " ++ record_id_tag isPerson

/-- Modelled from the spec: `tree.get_field_text(parent, tag)` of the external
tree reader returns the text of the first child carrying the given tag, or
nothing when no such child exists. -/
def get_field_text (parent : Node) (child_tag : String) : Option String :=
  (parent.children.find? fun c => c.tag == child_tag).bind Node.text

/-- The mutable state of `objectify_parents`: the object map being built plus
the diagnostics printed so far (the `print` at source line 96, modelled as an
output channel). -/
structure ObjState : Type where
  object_map : RecordMap
  output : List String
deriving DecidableEq

/-- The body of the per-child field-collection loop of `objectify_parents`
(source lines 106-116): skip ignored fields and, for persons, `note` children;
a child with no text counts as the empty string; a blank value is dropped
when `omit_blank_fields` is set. -/
def objectify_field_step (ignore_fields : List String) (omit_blank_fields : Bool)
    (isPerson : Bool) (rm : FieldMap) (child : Node) : FieldMap :=
  let field_name := child.tag
  if field_name ∉ ignore_fields ∧ (isPerson = false ∨ field_name ≠ "note") then
    let field_value := child.text.getD ""
    if field_value ≠ "" ∨ omit_blank_fields = false then dictInsert rm field_name field_value
    else rm
  else rm

/-- The per-child field-collection loop of `objectify_parents` (source lines
106-116), over the parent's child list. -/
def objectify_fields (children : List Node) (isPerson : Bool) (record_map : FieldMap)
    (ignore_fields : List String) (omit_blank_fields : Bool) : FieldMap :=
  children.foldl (objectify_field_step ignore_fields omit_blank_fields isPerson) record_map

/-- One iteration of the `objectify_parents` loop for a note parent (source
lines 92-116 with `is_person` false): no `note` filtering applies and the
enclosing person's id is injected as `person_record_id` before the fields are
read. -/
def objectify_note (parent : Node) (st : ObjState) (parent_person_record_id : Option String)
    (ignore_fields : List String) (omit_blank_fields : Bool) : ObjState :=
  match get_field_text parent "note_record_id" with
  | none => ObjState.mk st.object_map (st.output ++ [missing_id_message false])
  | some record_id =>
    let key := record_id_to_key record_id false
    let rm0 := (dictGet st.object_map key).getD []
    let rm1 :=
      match parent_person_record_id with
      | some pid =>
        if "person_record_id" ∉ ignore_fields then dictInsert rm0 "person_record_id" pid
        else rm0
      | none => rm0
    let rm2 := objectify_fields parent.children false rm1 ignore_fields omit_blank_fields
    ObjState.mk (dictInsert st.object_map key rm2) st.output

/-- Source `objectify_parents` restricted to note parents: the loop over the
parent list. -/
def objectify_notes (parents : List Node) (st : ObjState)
    (parent_person_record_id : Option String) (ignore_fields : List String)
    (omit_blank_fields : Bool) : ObjState :=
  parents.foldl
    (fun s p => objectify_note p s parent_person_record_id ignore_fields omit_blank_fields) st

/-- One iteration of the `objectify_parents` loop for a person parent (source
lines 92-122 with `is_person` true): `note` children are skipped as fields and
then recursed into as nested notes with this person's id injected. -/
def objectify_person (parent : Node) (st : ObjState) (ignore_fields : List String)
    (omit_blank_fields : Bool) : ObjState :=
  match get_field_text parent "person_record_id" with
  | none => ObjState.mk st.object_map (st.output ++ [missing_id_message true])
  | some record_id =>
    let key := record_id_to_key record_id true
    let rm0 := (dictGet st.object_map key).getD []
    let rm1 := objectify_fields parent.children true rm0 ignore_fields omit_blank_fields
    let st1 := ObjState.mk (dictInsert st.object_map key rm1) st.output
    let sub_notes := parent.children.filter fun c => c.tag == "note"
    objectify_notes sub_notes st1 (some record_id) ignore_fields omit_blank_fields

/-- Source `objectify_parents` restricted to person parents: the loop over the
parent list. -/
def objectify_persons (parents : List Node) (st : ObjState) (ignore_fields : List String)
    (omit_blank_fields : Bool) : ObjState :=
  parents.foldl (fun s p => objectify_person p s ignore_fields omit_blank_fields) st

/-- Source `objectify_parents` (lines 78-122).  The recursion into nested
notes always flips `is_person` from true to false, so the two cases are the
two loops above. -/
def objectify_parents (parents : List Node) (isPerson : Bool) (st : ObjState)
    (parent_person_record_id : Option String) (ignore_fields : List String)
    (omit_blank_fields : Bool) : ObjState :=
  if isPerson then objectify_persons parents st ignore_fields omit_blank_fields
  else objectify_notes parents st parent_person_record_id ignore_fields omit_blank_fields

/-- Modelled from the spec: a parsed document exposes the enumeration of its
person root nodes (`tree.get_all_persons`) and of its top-level note nodes
(`tree.get_top_level_notes`). -/
structure Document : Type where
  persons : List Node
  top_level_notes : List Node

/-- Source `objectify_pfif_xml` (lines 124-138): persons first, then top-level
notes, into one shared map; the function returns the map (diagnostics go to
the console). -/
def objectify_pfif_xml (doc : Document) (ignore_fields : List String)
    (omit_blank_fields : Bool) : RecordMap :=
  (objectify_parents doc.top_level_notes false
    (objectify_parents doc.persons true (ObjState.mk [] []) none ignore_fields
      omit_blank_fields)
    none ignore_fields omit_blank_fields).object_map

/-- Source `pfif_file_diff` (lines 192-200). -/
def pfif_file_diff (doc_a doc_b : Document) (text_is_case_sensitive : Bool)
    (ignore_fields : List String) (omit_blank_fields : Bool) : List Message :=
  pfif_obj_diff (objectify_pfif_xml doc_a ignore_fields omit_blank_fields)
    (objectify_pfif_xml doc_b ignore_fields omit_blank_fields) text_is_case_sensitive

/-- The key list of a Python dict. -/
def dictKeys {α : Type} (m : List (String × α)) : List String :=
  m.map Prod.fst

/-- Well-formedness every Python dict of dicts enjoys by construction: the
record keys are unique and so are the field names inside each field map. -/
def RecordMap.WF (m : RecordMap) : Prop :=
  (dictKeys m).Nodup ∧ ∀ p ∈ m, (dictKeys p.2).Nodup

/-- Every record key carries a kind mark, as every key built by
`record_id_to_key` does. -/
def RecordMap.CanonicalKeys (m : RecordMap) : Prop :=
  ∀ p ∈ m, PERSON_MARK.data.isPrefixOf p.1.data ∨ NOTE_MARK.data.isPrefixOf p.1.data

instance (m : RecordMap) : Decidable (RecordMap.WF m) :=
  inferInstanceAs (Decidable ((dictKeys m).Nodup ∧ ∀ p ∈ m, (dictKeys p.2).Nodup))

instance (m : RecordMap) : Decidable (RecordMap.CanonicalKeys m) :=
  inferInstanceAs (Decidable (∀ p ∈ m, _ ∨ _))

/-- Two field maps equal as Python dicts: every lookup agrees. -/
def FieldMap.EquivGet (f1 f2 : FieldMap) : Prop :=
  ∀ f, dictGet f1 f = dictGet f2 f

/-- Two record maps equal as Python dicts of dicts: the same keys are present
and the field maps at each key agree on every lookup. -/
def RecordMap.EquivGet (m1 m2 : RecordMap) : Prop :=
  ∀ k, (dictGet m1 k = none ∧ dictGet m2 k = none) ∨
    ∃ f1 f2, dictGet m1 k = some f1 ∧ dictGet m2 k = some f2 ∧ FieldMap.EquivGet f1 f2

theorem dictGet_dictInsert_self {α : Type} (m : List (String × α)) (k : String) (v : α) :
    dictGet (dictInsert m k v) k = some v := by
  induction m with
  | nil => simp [dictInsert, dictGet]
  | cons p rest ih =>
    obtain ⟨k0, v0⟩ := p
    by_cases h : k0 = k <;> simp [dictInsert, dictGet, h, ih]

theorem dictKeys_nil {α : Type} : dictKeys ([] : List (String × α)) = [] := rfl

theorem dictKeys_cons {α : Type} (p : String × α) (m : List (String × α)) :
    dictKeys (p :: m) = p.1 :: dictKeys m := rfl

theorem dictGet_dictInsert_ne {α : Type} (m : List (String × α)) (k k' : String) (v : α)
    (h : k' ≠ k) : dictGet (dictInsert m k v) k' = dictGet m k' := by
  induction m with
  | nil => simp [dictInsert, dictGet, Ne.symm h]
  | cons p rest ih =>
    obtain ⟨k0, v0⟩ := p
    by_cases h0 : k0 = k
    · subst h0
      simp [dictInsert, dictGet, Ne.symm h]
    · simp [dictInsert, dictGet, h0, ih]

theorem mem_dictInsert {α : Type} {m : List (String × α)} {k : String} {v : α}
    {p : String × α} (h : p ∈ dictInsert m k v) : p ∈ m ∨ p = (k, v) := by
  induction m with
  | nil => simpa [dictInsert] using h
  | cons q rest ih =>
    obtain ⟨k0, v0⟩ := q
    by_cases h0 : k0 = k
    · simp only [dictInsert, if_pos h0, List.mem_cons] at h
      rcases h with h | h
      · exact Or.inr h
      · exact Or.inl (List.mem_cons_of_mem _ h)
    · simp only [dictInsert, if_neg h0, List.mem_cons] at h
      rcases h with h | h
      · exact Or.inl (by simp [h])
      · rcases ih h with h' | h'
        · exact Or.inl (List.mem_cons_of_mem _ h')
        · exact Or.inr h'

theorem mem_dictKeys {α : Type} {m : List (String × α)} {k : String} :
    k ∈ dictKeys m ↔ ∃ v, (k, v) ∈ m := by
  constructor
  · intro h
    obtain ⟨p, hp, hk⟩ := List.mem_map.1 h
    exact ⟨p.2, by simpa [← hk] using hp⟩
  · rintro ⟨v, hv⟩
    exact List.mem_map.2 ⟨(k, v), hv, rfl⟩

theorem dictGet_isSome_iff {α : Type} {m : List (String × α)} {k : String} :
    (dictGet m k).isSome ↔ k ∈ dictKeys m := by
  induction m with
  | nil => simp [dictGet, dictKeys]
  | cons p rest ih =>
    obtain ⟨k0, v0⟩ := p
    by_cases h : k0 = k
    · simp [dictGet, dictKeys_cons, h]
    · rw [dictKeys_cons, List.mem_cons]
      simp only [dictGet, if_neg h, ih]
      constructor
      · exact fun hm => Or.inr hm
      · rintro (hm | hm)
        · exact absurd hm.symm h
        · exact hm

theorem dictGet_eq_none_iff {α : Type} {m : List (String × α)} {k : String} :
    dictGet m k = none ↔ k ∉ dictKeys m := by
  rw [← dictGet_isSome_iff, Option.isSome_iff_ne_none]
  simp

theorem dictGet_mem {α : Type} {m : List (String × α)} {k : String} {v : α}
    (h : dictGet m k = some v) : (k, v) ∈ m := by
  induction m with
  | nil => simp [dictGet] at h
  | cons p rest ih =>
    obtain ⟨k0, v0⟩ := p
    by_cases h0 : k0 = k
    · subst h0
      simp [dictGet] at h
      simp [h]
    · simp only [dictGet, if_neg h0] at h
      exact List.mem_cons_of_mem _ (ih h)

theorem dictGet_of_mem_of_nodup {α : Type} {m : List (String × α)} {k : String} {v : α}
    (hnd : (dictKeys m).Nodup) (h : (k, v) ∈ m) : dictGet m k = some v := by
  induction m with
  | nil => simp at h
  | cons p rest ih =>
    obtain ⟨k0, v0⟩ := p
    simp only [dictKeys, List.map_cons, List.nodup_cons] at hnd
    rcases List.mem_cons.1 h with h | h
    · obtain ⟨h1, h2⟩ := Prod.mk.injEq .. ▸ congrArg id h
      cases h
      simp [dictGet]
    · have hk : k0 ≠ k := by
        intro he
        subst he
        exact hnd.1 (mem_dictKeys.2 ⟨v, h⟩)
      simp only [dictGet, if_neg hk]
      exact ih hnd.2 h

theorem dictInsert_cons_ne {α : Type} (m : List (String × α)) (k0 k : String) (v0 v : α)
    (h : k0 ≠ k) : dictInsert ((k0, v0) :: m) k v = (k0, v0) :: dictInsert m k v := by
  simp [dictInsert, h]

theorem dictInsert_eq_append {α : Type} {m : List (String × α)} {k : String} (v : α)
    (h : k ∉ dictKeys m) : dictInsert m k v = m ++ [(k, v)] := by
  induction m with
  | nil => simp [dictInsert]
  | cons p rest ih =>
    obtain ⟨k0, v0⟩ := p
    rw [dictKeys_cons, List.mem_cons] at h
    push_neg at h
    simp [dictInsert, Ne.symm h.1, ih h.2]

theorem dictGet_append_left {α : Type} {m1 : List (String × α)} (m2 : List (String × α))
    {k : String} {v : α} (h : dictGet m1 k = some v) : dictGet (m1 ++ m2) k = some v := by
  induction m1 with
  | nil => simp [dictGet] at h
  | cons p rest ih =>
    obtain ⟨k0, v0⟩ := p
    by_cases h0 : k0 = k <;> simp_all [dictGet]

theorem dictGet_append_right {α : Type} {m1 : List (String × α)} (m2 : List (String × α))
    {k : String} (h : dictGet m1 k = none) : dictGet (m1 ++ m2) k = dictGet m2 k := by
  induction m1 with
  | nil => simp
  | cons p rest ih =>
    obtain ⟨k0, v0⟩ := p
    by_cases h0 : k0 = k <;> simp_all [dictGet]

theorem dictKeys_dictInsert_mem {α : Type} {m : List (String × α)} {k : String} (v : α)
    (h : k ∈ dictKeys m) : dictKeys (dictInsert m k v) = dictKeys m := by
  induction m with
  | nil => simp [dictKeys] at h
  | cons p rest ih =>
    obtain ⟨k0, v0⟩ := p
    by_cases h0 : k0 = k
    · simp [dictInsert, dictKeys_cons, h0]
    · rw [dictKeys_cons, List.mem_cons] at h
      rcases h with h | h
      · exact absurd h.symm h0
      · rw [dictInsert_cons_ne _ _ _ _ _ h0, dictKeys_cons, dictKeys_cons, ih h]

theorem mem_dictKeys_dictInsert {α : Type} {m : List (String × α)} {k k' : String} {v : α} :
    k' ∈ dictKeys (dictInsert m k v) ↔ k' ∈ dictKeys m ∨ k' = k := by
  induction m with
  | nil => simp [dictInsert, dictKeys]
  | cons p rest ih =>
    obtain ⟨k0, v0⟩ := p
    by_cases h0 : k0 = k
    · subst h0
      rw [show dictInsert ((k0, v0) :: rest) k0 v = (k0, v) :: rest by simp [dictInsert],
        dictKeys_cons, dictKeys_cons]
      simp only [List.mem_cons]
      tauto
    · rw [dictInsert_cons_ne _ _ _ _ _ h0, dictKeys_cons, dictKeys_cons, List.mem_cons,
        List.mem_cons, ih]
      tauto

theorem nodup_dictKeys_dictInsert {α : Type} {m : List (String × α)} {k : String} (v : α)
    (h : (dictKeys m).Nodup) : (dictKeys (dictInsert m k v)).Nodup := by
  induction m with
  | nil => simp [dictInsert, dictKeys]
  | cons p rest ih =>
    obtain ⟨k0, v0⟩ := p
    rw [dictKeys_cons, List.nodup_cons] at h
    by_cases h0 : k0 = k
    · subst h0
      rw [show dictInsert ((k0, v0) :: rest) k0 v = (k0, v) :: rest by simp [dictInsert],
        dictKeys_cons, List.nodup_cons]
      exact h
    · rw [dictInsert_cons_ne _ _ _ _ _ h0, dictKeys_cons, List.nodup_cons]
      refine ⟨?_, ih h.2⟩
      intro hmem
      rcases mem_dictKeys_dictInsert.1 hmem with hmem | hmem
      · exact h.1 hmem
      · exact h0 hmem

theorem make_diff_message_category (c : Category) (rid : String) (e t : Option String) :
    (make_diff_message c rid e t).category = c := by
  unfold make_diff_message
  split <;> rfl

theorem make_diff_message_xml_tag (c : Category) (rid : String) (e t : Option String) :
    (make_diff_message c rid e t).xml_tag = t := by
  unfold make_diff_message
  split <;> rfl

theorem make_diff_message_extra (c : Category) (rid : String) (e t : Option String) :
    (make_diff_message c rid e t).extra_data = e := by
  unfold make_diff_message
  split <;> rfl

theorem make_diff_message_eq_iff {c : Category} {rid rid' : String} {e t : Option String} :
    make_diff_message c rid e t = make_diff_message c rid' e t ↔
      (is_key_person rid = is_key_person rid' ∧
        key_to_record_id rid = key_to_record_id rid') := by
  unfold make_diff_message
  by_cases h1 : is_key_person rid <;> by_cases h2 : is_key_person rid' <;>
    simp [h1, h2, Message.mk.injEq]

theorem make_diff_message_eq_congr {c c' : Category} {rid rid' : String}
    {e e' t t' : Option String}
    (h : make_diff_message c rid e t = make_diff_message c rid' e t) :
    make_diff_message c' rid e' t' = make_diff_message c' rid' e' t' := by
  rw [make_diff_message_eq_iff] at h ⊢
  exact h

theorem field_map_diff_deleted_iff {rec : String} {fa fb : FieldMap} {cs : Bool} {m : Message} :
    (m ∈ field_map_diff rec fa fb cs ∧ m.category = .DELETED_FIELD) ↔
    ∃ f, f ∈ dictKeys fa ∧ dictGet fb f = none ∧
      m = make_diff_message .DELETED_FIELD rec none (some f) := by
  constructor
  · rintro ⟨h, hcat⟩
    unfold field_map_diff at h
    rcases List.mem_append.1 h with h | h
    · obtain ⟨fv, hfv, hm⟩ := List.mem_flatMap.1 h
      unfold diff_one_field at hm
      split at hm
      next hget =>
        simp only [List.mem_singleton] at hm
        subst hm
        exact ⟨fv.1, mem_dictKeys.2 ⟨fv.2, hfv⟩, hget, rfl⟩
      next vb hget =>
        split at hm
        · simp only [List.mem_singleton] at hm
          subst hm
          rw [make_diff_message_category] at hcat
          cases hcat
        · simp at hm
    · obtain ⟨fv, hfv, hsome⟩ := List.mem_filterMap.1 h
      split at hsome
      · cases Option.some.inj hsome
        rw [make_diff_message_category] at hcat
        cases hcat
      · cases hsome
  · rintro ⟨f, hf, hnone, rfl⟩
    refine ⟨?_, make_diff_message_category ..⟩
    unfold field_map_diff
    refine List.mem_append.2 (Or.inl ?_)
    obtain ⟨va, hva⟩ := mem_dictKeys.1 hf
    refine List.mem_flatMap.2 ⟨(f, va), hva, ?_⟩
    simp [diff_one_field, hnone]

theorem field_map_diff_added_iff {rec : String} {fa fb : FieldMap} {cs : Bool} {m : Message} :
    (m ∈ field_map_diff rec fa fb cs ∧ m.category = .ADDED_FIELD) ↔
    ∃ f, f ∈ dictKeys fb ∧ dictGet fa f = none ∧
      m = make_diff_message .ADDED_FIELD rec none (some f) := by
  constructor
  · rintro ⟨h, hcat⟩
    unfold field_map_diff at h
    rcases List.mem_append.1 h with h | h
    · obtain ⟨fv, hfv, hm⟩ := List.mem_flatMap.1 h
      unfold diff_one_field at hm
      split at hm
      next hget =>
        simp only [List.mem_singleton] at hm
        subst hm
        rw [make_diff_message_category] at hcat
        cases hcat
      next vb hget =>
        split at hm
        · simp only [List.mem_singleton] at hm
          subst hm
          rw [make_diff_message_category] at hcat
          cases hcat
        · simp at hm
    · obtain ⟨fv, hfv, hsome⟩ := List.mem_filterMap.1 h
      split at hsome
      next hnone =>
        cases Option.some.inj hsome
        exact ⟨fv.1, mem_dictKeys.2 ⟨fv.2, hfv⟩, hnone, rfl⟩
      next => cases hsome
  · rintro ⟨f, hf, hnone, rfl⟩
    refine ⟨?_, make_diff_message_category ..⟩
    unfold field_map_diff
    refine List.mem_append.2 (Or.inr ?_)
    obtain ⟨vb, hvb⟩ := mem_dictKeys.1 hf
    refine List.mem_filterMap.2 ⟨(f, vb), hvb, ?_⟩
    simp [hnone]

theorem field_map_diff_changed_iff {rec : String} {fa fb : FieldMap} {cs : Bool} {m : Message}
    (hfa : (dictKeys fa).Nodup) :
    (m ∈ field_map_diff rec fa fb cs ∧ m.category = .CHANGED_FIELD) ↔
    ∃ f va vb, dictGet fa f = some va ∧ dictGet fb f = some vb ∧
      fold_case cs va ≠ fold_case cs vb ∧
      m = make_diff_message .CHANGED_FIELD rec
        (some (changed_payload (fold_case cs va) (fold_case cs vb))) (some f) := by
  constructor
  · rintro ⟨h, hcat⟩
    unfold field_map_diff at h
    rcases List.mem_append.1 h with h | h
    · obtain ⟨fv, hfv, hm⟩ := List.mem_flatMap.1 h
      unfold diff_one_field at hm
      split at hm
      next hget =>
        simp only [List.mem_singleton] at hm
        subst hm
        rw [make_diff_message_category] at hcat
        cases hcat
      next vb hget =>
        split at hm
        next hne =>
          simp only [List.mem_singleton] at hm
          subst hm
          exact ⟨fv.1, fv.2, vb, dictGet_of_mem_of_nodup hfa hfv, hget, hne, rfl⟩
        next => simp at hm
    · obtain ⟨fv, hfv, hsome⟩ := List.mem_filterMap.1 h
      split at hsome
      · cases Option.some.inj hsome
        rw [make_diff_message_category] at hcat
        cases hcat
      · cases hsome
  · rintro ⟨f, va, vb, hva, hvb, hne, rfl⟩
    refine ⟨?_, make_diff_message_category ..⟩
    unfold field_map_diff
    refine List.mem_append.2 (Or.inl ?_)
    refine List.mem_flatMap.2 ⟨(f, va), dictGet_mem hva, ?_⟩
    unfold diff_one_field
    simp only [hvb]
    simp [hne]

theorem field_map_diff_nil {rec : String} {fa fb : FieldMap} {cs : Bool}
    (hfa : (dictKeys fa).Nodup) (heq : FieldMap.EquivGet fa fb) :
    field_map_diff rec fa fb cs = [] := by
  unfold field_map_diff
  rw [List.append_eq_nil]
  constructor
  · rw [List.flatMap_eq_nil_iff]
    intro fv hfv
    have hga : dictGet fa fv.1 = some fv.2 := dictGet_of_mem_of_nodup hfa hfv
    have hgb : dictGet fb fv.1 = some fv.2 := (heq fv.1) ▸ hga
    simp [diff_one_field, hgb]
  · rw [List.filterMap_eq_nil_iff]
    intro fv hfv
    have hb : (dictGet fb fv.1).isSome := dictGet_isSome_iff.2 (mem_dictKeys.2 ⟨fv.2, hfv⟩)
    have ha : dictGet fa fv.1 ≠ none := by
      rw [heq fv.1]
      intro hcon
      rw [hcon] at hb
      cases hb
    simp [ha]

theorem make_diff_message_eq_ext {c : Category} {k k' : String} {e e' t t' : Option String} :
    make_diff_message c k e t = make_diff_message c k' e' t' ↔
      (is_key_person k = is_key_person k' ∧ key_to_record_id k = key_to_record_id k' ∧
        e = e' ∧ t = t') := by
  unfold make_diff_message
  by_cases h1 : is_key_person k <;> by_cases h2 : is_key_person k' <;>
    simp [h1, h2, Message.mk.injEq]

theorem field_map_diff_category {rec : String} {fa fb : FieldMap} {cs : Bool} {m : Message}
    (h : m ∈ field_map_diff rec fa fb cs) :
    m.category = .DELETED_FIELD ∨ m.category = .CHANGED_FIELD ∨
      m.category = .ADDED_FIELD := by
  unfold field_map_diff at h
  rcases List.mem_append.1 h with h | h
  · obtain ⟨fv, hfv, hm⟩ := List.mem_flatMap.1 h
    unfold diff_one_field at hm
    split at hm
    next hget =>
      simp only [List.mem_singleton] at hm
      subst hm
      exact Or.inl (make_diff_message_category ..)
    next vb hget =>
      split at hm
      · simp only [List.mem_singleton] at hm
        subst hm
        exact Or.inr (Or.inl (make_diff_message_category ..))
      · simp at hm
  · obtain ⟨fv, hfv, hsome⟩ := List.mem_filterMap.1 h
    split at hsome
    · cases Option.some.inj hsome
      exact Or.inr (Or.inr (make_diff_message_category ..))
    · cases hsome

theorem diff_deleted_record_iff {A B : RecordMap} {cs : Bool} {m : Message} :
    (m ∈ pfif_obj_diff A B cs ∧ m.category = .DELETED_RECORD) ↔
    ∃ k, k ∈ dictKeys A ∧ dictGet B k = none ∧
      m = make_diff_message .DELETED_RECORD k none none := by
  constructor
  · rintro ⟨h, hcat⟩
    unfold pfif_obj_diff at h
    rcases List.mem_append.1 h with h | h
    · obtain ⟨rf, hrf, hm⟩ := List.mem_flatMap.1 h
      unfold diff_one_record at hm
      split at hm
      next hget =>
        simp only [List.mem_singleton] at hm
        subst hm
        exact ⟨rf.1, mem_dictKeys.2 ⟨rf.2, hrf⟩, hget, rfl⟩
      next fb hget =>
        rcases field_map_diff_category hm with hc | hc | hc <;> rw [hcat] at hc <;> cases hc
    · obtain ⟨rf, hrf, hsome⟩ := List.mem_filterMap.1 h
      split at hsome
      · cases Option.some.inj hsome
        rw [make_diff_message_category] at hcat
        cases hcat
      · cases hsome
  · rintro ⟨k, hk, hnone, rfl⟩
    refine ⟨?_, make_diff_message_category ..⟩
    unfold pfif_obj_diff
    refine List.mem_append.2 (Or.inl ?_)
    obtain ⟨fa, hfa⟩ := mem_dictKeys.1 hk
    refine List.mem_flatMap.2 ⟨(k, fa), hfa, ?_⟩
    simp [diff_one_record, hnone]

theorem diff_added_record_iff {A B : RecordMap} {cs : Bool} {m : Message} :
    (m ∈ pfif_obj_diff A B cs ∧ m.category = .ADDED_RECORD) ↔
    ∃ k, k ∈ dictKeys B ∧ dictGet A k = none ∧
      m = make_diff_message .ADDED_RECORD k none none := by
  constructor
  · rintro ⟨h, hcat⟩
    unfold pfif_obj_diff at h
    rcases List.mem_append.1 h with h | h
    · obtain ⟨rf, hrf, hm⟩ := List.mem_flatMap.1 h
      unfold diff_one_record at hm
      split at hm
      next hget =>
        simp only [List.mem_singleton] at hm
        subst hm
        rw [make_diff_message_category] at hcat
        cases hcat
      next fb hget =>
        rcases field_map_diff_category hm with hc | hc | hc <;> rw [hcat] at hc <;> cases hc
    · obtain ⟨rf, hrf, hsome⟩ := List.mem_filterMap.1 h
      split at hsome
      next hnone =>
        cases Option.some.inj hsome
        exact ⟨rf.1, mem_dictKeys.2 ⟨rf.2, hrf⟩, hnone, rfl⟩
      next => cases hsome
  · rintro ⟨k, hk, hnone, rfl⟩
    refine ⟨?_, make_diff_message_category ..⟩
    unfold pfif_obj_diff
    refine List.mem_append.2 (Or.inr ?_)
    obtain ⟨fb, hfb⟩ := mem_dictKeys.1 hk
    refine List.mem_filterMap.2 ⟨(k, fb), hfb, ?_⟩
    simp [hnone]

theorem diff_field_mem_iff {A B : RecordMap} {cs : Bool} {m : Message}
    (hA : RecordMap.WF A) (h1 : m.category ≠ .DELETED_RECORD)
    (h2 : m.category ≠ .ADDED_RECORD) :
    m ∈ pfif_obj_diff A B cs ↔
    ∃ k fa fb, dictGet A k = some fa ∧ dictGet B k = some fb ∧
      m ∈ field_map_diff k fa fb cs := by
  constructor
  · intro h
    unfold pfif_obj_diff at h
    rcases List.mem_append.1 h with h | h
    · obtain ⟨rf, hrf, hm⟩ := List.mem_flatMap.1 h
      unfold diff_one_record at hm
      split at hm
      next hget =>
        simp only [List.mem_singleton] at hm
        subst hm
        exact absurd (make_diff_message_category ..) h1
      next fb hget =>
        exact ⟨rf.1, rf.2, fb, dictGet_of_mem_of_nodup hA.1 hrf, hget, hm⟩
    · obtain ⟨rf, hrf, hsome⟩ := List.mem_filterMap.1 h
      split at hsome
      · cases Option.some.inj hsome
        exact absurd (make_diff_message_category ..) h2
      · cases hsome
  · rintro ⟨k, fa, fb, hga, hgb, hm⟩
    unfold pfif_obj_diff
    refine List.mem_append.2 (Or.inl ?_)
    refine List.mem_flatMap.2 ⟨(k, fa), dictGet_mem hga, ?_⟩
    simpa [diff_one_record, hgb] using hm

theorem diff_deleted_field_iff {A B : RecordMap} {cs : Bool} {m : Message}
    (hA : RecordMap.WF A) :
    (m ∈ pfif_obj_diff A B cs ∧ m.category = .DELETED_FIELD) ↔
    ∃ k f fa fb, dictGet A k = some fa ∧ dictGet B k = some fb ∧
      f ∈ dictKeys fa ∧ dictGet fb f = none ∧
      m = make_diff_message .DELETED_FIELD k none (some f) := by
  constructor
  · rintro ⟨h, hcat⟩
    rw [diff_field_mem_iff hA (by simp [hcat]) (by simp [hcat])] at h
    obtain ⟨k, fa, fb, hga, hgb, hm⟩ := h
    obtain ⟨f, hf, hnone, rfl⟩ := field_map_diff_deleted_iff.1 ⟨hm, hcat⟩
    exact ⟨k, f, fa, fb, hga, hgb, hf, hnone, rfl⟩
  · rintro ⟨k, f, fa, fb, hga, hgb, hf, hnone, rfl⟩
    refine ⟨?_, make_diff_message_category ..⟩
    rw [diff_field_mem_iff hA (by simp [make_diff_message_category])
      (by simp [make_diff_message_category])]
    exact ⟨k, fa, fb, hga, hgb, (field_map_diff_deleted_iff.2 ⟨f, hf, hnone, rfl⟩).1⟩

theorem diff_added_field_iff {A B : RecordMap} {cs : Bool} {m : Message}
    (hA : RecordMap.WF A) :
    (m ∈ pfif_obj_diff A B cs ∧ m.category = .ADDED_FIELD) ↔
    ∃ k f fa fb, dictGet A k = some fa ∧ dictGet B k = some fb ∧
      f ∈ dictKeys fb ∧ dictGet fa f = none ∧
      m = make_diff_message .ADDED_FIELD k none (some f) := by
  constructor
  · rintro ⟨h, hcat⟩
    rw [diff_field_mem_iff hA (by simp [hcat]) (by simp [hcat])] at h
    obtain ⟨k, fa, fb, hga, hgb, hm⟩ := h
    obtain ⟨f, hf, hnone, rfl⟩ := field_map_diff_added_iff.1 ⟨hm, hcat⟩
    exact ⟨k, f, fa, fb, hga, hgb, hf, hnone, rfl⟩
  · rintro ⟨k, f, fa, fb, hga, hgb, hf, hnone, rfl⟩
    refine ⟨?_, make_diff_message_category ..⟩
    rw [diff_field_mem_iff hA (by simp [make_diff_message_category])
      (by simp [make_diff_message_category])]
    exact ⟨k, fa, fb, hga, hgb, (field_map_diff_added_iff.2 ⟨f, hf, hnone, rfl⟩).1⟩

theorem diff_changed_iff {A B : RecordMap} {cs : Bool} {m : Message}
    (hA : RecordMap.WF A) :
    (m ∈ pfif_obj_diff A B cs ∧ m.category = .CHANGED_FIELD) ↔
    ∃ k f fa fb va vb, dictGet A k = some fa ∧ dictGet B k = some fb ∧
      dictGet fa f = some va ∧ dictGet fb f = some vb ∧
      fold_case cs va ≠ fold_case cs vb ∧
      m = make_diff_message .CHANGED_FIELD k
        (some (changed_payload (fold_case cs va) (fold_case cs vb))) (some f) := by
  constructor
  · rintro ⟨h, hcat⟩
    rw [diff_field_mem_iff hA (by simp [hcat]) (by simp [hcat])] at h
    obtain ⟨k, fa, fb, hga, hgb, hm⟩ := h
    obtain ⟨f, va, vb, hva, hvb, hne, rfl⟩ :=
      (field_map_diff_changed_iff (hA.2 _ (dictGet_mem hga))).1 ⟨hm, hcat⟩
    exact ⟨k, f, fa, fb, va, vb, hga, hgb, hva, hvb, hne, rfl⟩
  · rintro ⟨k, f, fa, fb, va, vb, hga, hgb, hva, hvb, hne, rfl⟩
    refine ⟨?_, make_diff_message_category ..⟩
    rw [diff_field_mem_iff hA (by simp [make_diff_message_category])
      (by simp [make_diff_message_category])]
    refine ⟨k, fa, fb, hga, hgb, ?_⟩
    exact ((field_map_diff_changed_iff (hA.2 _ (dictGet_mem hga))).2
      ⟨f, va, vb, hva, hvb, hne, rfl⟩).1

theorem diff_nil_of_equiv {A B : RecordMap} {cs : Bool} (hA : RecordMap.WF A)
    (hkeys : ∀ k, k ∈ dictKeys A ↔ k ∈ dictKeys B)
    (hget : ∀ k fa fb, dictGet A k = some fa → dictGet B k = some fb →
      FieldMap.EquivGet fa fb) :
    pfif_obj_diff A B cs = [] := by
  unfold pfif_obj_diff
  rw [List.append_eq_nil]
  constructor
  · rw [List.flatMap_eq_nil_iff]
    intro rf hrf
    have hka : rf.1 ∈ dictKeys A := mem_dictKeys.2 ⟨rf.2, hrf⟩
    have hkb := (hkeys rf.1).1 hka
    obtain ⟨fb, hfb⟩ := Option.isSome_iff_exists.1 (dictGet_isSome_iff.2 hkb)
    have hga : dictGet A rf.1 = some rf.2 := dictGet_of_mem_of_nodup hA.1 hrf
    unfold diff_one_record
    simp only [hfb]
    exact field_map_diff_nil (hA.2 rf hrf) (hget rf.1 rf.2 fb hga hfb)
  · rw [List.filterMap_eq_nil_iff]
    intro rf hrf
    have hkb : rf.1 ∈ dictKeys B := mem_dictKeys.2 ⟨rf.2, hrf⟩
    have hka := (hkeys rf.1).2 hkb
    have hne : dictGet A rf.1 ≠ none := by
      intro hcon
      rw [dictGet_eq_none_iff] at hcon
      exact hcon hka
    simp [hne]

theorem deleted_added_record_corr (A B : RecordMap) (cs : Bool) (k : String) :
    make_diff_message .DELETED_RECORD k none none ∈ pfif_obj_diff A B cs ↔
    make_diff_message .ADDED_RECORD k none none ∈ pfif_obj_diff B A cs := by
  constructor
  · intro h
    obtain ⟨k', hk', hnone, heq⟩ := diff_deleted_record_iff.1 ⟨h, make_diff_message_category ..⟩
    refine (diff_added_record_iff.2 ⟨k', hk', hnone, ?_⟩).1
    exact make_diff_message_eq_congr heq
  · intro h
    obtain ⟨k', hk', hnone, heq⟩ := diff_added_record_iff.1 ⟨h, make_diff_message_category ..⟩
    refine (diff_deleted_record_iff.2 ⟨k', hk', hnone, ?_⟩).1
    exact make_diff_message_eq_congr heq

theorem deleted_added_field_corr (A B : RecordMap) (cs : Bool) (k f : String)
    (hA : RecordMap.WF A) (hB : RecordMap.WF B) :
    make_diff_message .DELETED_FIELD k none (some f) ∈ pfif_obj_diff A B cs ↔
    make_diff_message .ADDED_FIELD k none (some f) ∈ pfif_obj_diff B A cs := by
  constructor
  · intro h
    obtain ⟨k', f', fa, fb, hga, hgb, hf, hnone, heq⟩ :=
      (diff_deleted_field_iff hA).1 ⟨h, make_diff_message_category ..⟩
    obtain ⟨hk1, hk2, _, ht⟩ := make_diff_message_eq_ext.1 heq
    obtain rfl := Option.some.inj ht
    refine ((diff_added_field_iff hB).2 ⟨k', f, fb, fa, hgb, hga, hf, hnone, ?_⟩).1
    exact make_diff_message_eq_ext.2 ⟨hk1, hk2, rfl, rfl⟩
  · intro h
    obtain ⟨k', f', fb, fa, hgb, hga, hf, hnone, heq⟩ :=
      (diff_added_field_iff hB).1 ⟨h, make_diff_message_category ..⟩
    obtain ⟨hk1, hk2, _, ht⟩ := make_diff_message_eq_ext.1 heq
    obtain rfl := Option.some.inj ht
    refine ((diff_deleted_field_iff hA).2 ⟨k', f, fa, fb, hga, hgb, hf, hnone, ?_⟩).1
    exact make_diff_message_eq_ext.2 ⟨hk1, hk2, rfl, rfl⟩

theorem changed_field_corr (A B : RecordMap) (cs : Bool)
    (hA : RecordMap.WF A) (hB : RecordMap.WF B) :
    ∀ m ∈ pfif_obj_diff A B cs, m.category = .CHANGED_FIELD →
      ∃ k f x y, m = make_diff_message .CHANGED_FIELD k (some (changed_payload x y)) (some f) ∧
        make_diff_message .CHANGED_FIELD k (some (changed_payload y x)) (some f) ∈
          pfif_obj_diff B A cs := by
  intro m hm hcat
  obtain ⟨k, f, fa, fb, va, vb, hga, hgb, hva, hvb, hne, rfl⟩ :=
    (diff_changed_iff hA).1 ⟨hm, hcat⟩
  refine ⟨k, f, fold_case cs va, fold_case cs vb, rfl, ?_⟩
  exact ((diff_changed_iff hB).2
    ⟨k, f, fb, fa, vb, va, hgb, hga, hvb, hva, Ne.symm hne, rfl⟩).1

/-- C5: diffing a record map against itself yields the empty message
sequence, whatever the case-sensitivity setting.  Stated for well-formed maps,
which is every map a Python dict can represent. -/
theorem diff_self_empty (M : RecordMap) (cs : Bool) (h : RecordMap.WF M) :
    pfif_obj_diff M M cs = [] :=
  diff_nil_of_equiv h (fun _ => Iff.rfl) (fun k fa fb h1 h2 => by
    rw [h1] at h2
    cases Option.some.inj h2
    exact fun f => rfl)

theorem diff_self_empty_witness :
    RecordMap.WF [("pP1", [("full_name", "Jane")]), ("nN1", [("note_text", "hi")])] ∧
    pfif_obj_diff [("pP1", [("full_name", "Jane")]), ("nN1", [("note_text", "hi")])]
      [("pP1", [("full_name", "Jane")]), ("nN1", [("note_text", "hi")])] false = [] :=
  ⟨by decide, diff_self_empty _ false (by decide)⟩

/-- C4: diff is antisymmetric under swapping its two record-map arguments:
deleted records of diff(A,B) are the added records of diff(B,A) and vice
versa, deleted fields of diff(A,B) are the added fields of diff(B,A) and vice
versa, and every changed-field message of diff(A,B) with payload built from
values x, y has a counterpart in diff(B,A) with payload built from y, x, and
vice versa.  Stated for well-formed maps, which is every map a Python dict can
represent. -/
theorem diff_antisymmetric (A B : RecordMap) (cs : Bool)
    (hA : RecordMap.WF A) (hB : RecordMap.WF B) :
    (∀ k, make_diff_message .DELETED_RECORD k none none ∈ pfif_obj_diff A B cs ↔
      make_diff_message .ADDED_RECORD k none none ∈ pfif_obj_diff B A cs) ∧
    (∀ k, make_diff_message .ADDED_RECORD k none none ∈ pfif_obj_diff A B cs ↔
      make_diff_message .DELETED_RECORD k none none ∈ pfif_obj_diff B A cs) ∧
    (∀ k f, make_diff_message .DELETED_FIELD k none (some f) ∈ pfif_obj_diff A B cs ↔
      make_diff_message .ADDED_FIELD k none (some f) ∈ pfif_obj_diff B A cs) ∧
    (∀ k f, make_diff_message .ADDED_FIELD k none (some f) ∈ pfif_obj_diff A B cs ↔
      make_diff_message .DELETED_FIELD k none (some f) ∈ pfif_obj_diff B A cs) ∧
    (∀ m ∈ pfif_obj_diff A B cs, m.category = .CHANGED_FIELD →
      ∃ k f x y,
        m = make_diff_message .CHANGED_FIELD k (some (changed_payload x y)) (some f) ∧
        make_diff_message .CHANGED_FIELD k (some (changed_payload y x)) (some f) ∈
          pfif_obj_diff B A cs) ∧
    (∀ m ∈ pfif_obj_diff B A cs, m.category = .CHANGED_FIELD →
      ∃ k f x y,
        m = make_diff_message .CHANGED_FIELD k (some (changed_payload x y)) (some f) ∧
        make_diff_message .CHANGED_FIELD k (some (changed_payload y x)) (some f) ∈
          pfif_obj_diff A B cs) :=
  ⟨fun k => deleted_added_record_corr A B cs k,
   fun k => (deleted_added_record_corr B A cs k).symm,
   fun k f => deleted_added_field_corr A B cs k f hA hB,
   fun k f => (deleted_added_field_corr B A cs k f hB hA).symm,
   changed_field_corr A B cs hA hB,
   changed_field_corr B A cs hB hA⟩

theorem diff_antisymmetric_witness :
    RecordMap.WF [("pX", [("a", "1")])] ∧ RecordMap.WF [] ∧
    (make_diff_message .DELETED_RECORD "pX" none none ∈
        pfif_obj_diff [("pX", [("a", "1")])] [] true ↔
      make_diff_message .ADDED_RECORD "pX" none none ∈
        pfif_obj_diff [] [("pX", [("a", "1")])] true) :=
  ⟨by decide, by decide,
   (diff_antisymmetric [("pX", [("a", "1")])] [] true (by decide) (by decide)).1 "pX"⟩

/-- C6: the record-key scheme is invertible and collision-free across kinds:
decoding a key recovers the raw identifier and the kind, and a person key
never equals a note key, even for equal raw identifiers. -/
theorem record_key_scheme_invertible (s t : String) (k : Bool) :
    key_to_record_id (record_id_to_key s k) = s ∧
    is_key_person (record_id_to_key s k) = k ∧
    record_id_to_key s true ≠ record_id_to_key t false := by
  refine ⟨?_, ?_, ?_⟩
  · cases k <;>
      (apply String.ext
       simp [key_to_record_id, record_id_to_key, PERSON_MARK, NOTE_MARK, String.drop_eq])
  · cases k <;>
      simp [is_key_person, record_id_to_key, PERSON_MARK, NOTE_MARK, List.isPrefixOf]
  · intro h
    have hd : ("p" ++ s).data = ("n" ++ t).data := by
      simpa [record_id_to_key, PERSON_MARK, NOTE_MARK] using congrArg String.data h
    simp at hd

theorem singleton_isPrefixOf_iff {c : Char} {l : List Char} :
    ([c].isPrefixOf l) = true ↔ ∃ r, l = c :: r := by
  cases l with
  | nil => simp [List.isPrefixOf]
  | cons d r =>
    constructor
    · intro h
      have hcd : c = d := by
        simpa [List.isPrefixOf] using h
      exact ⟨r, by rw [hcd]⟩
    · rintro ⟨r', he⟩
      injection he with h1 h2
      subst h1
      simp [List.isPrefixOf]

theorem canonical_key_inj {k k' : String}
    (hk : PERSON_MARK.data.isPrefixOf k.data ∨ NOTE_MARK.data.isPrefixOf k.data)
    (hk' : PERSON_MARK.data.isPrefixOf k'.data ∨ NOTE_MARK.data.isPrefixOf k'.data)
    (h1 : is_key_person k = is_key_person k')
    (h2 : key_to_record_id k = key_to_record_id k') : k = k' := by
  have hdrop : k.data.drop 1 = k'.data.drop 1 := by
    have hd := congrArg String.data h2
    simpa [key_to_record_id, String.drop_eq] using hd
  have hpm : PERSON_MARK.data = ['p'] := rfl
  have hnm : NOTE_MARK.data = ['n'] := rfl
  rw [hpm, hnm] at hk hk'
  apply String.ext
  rcases hk with hk | hk <;> rcases hk' with hk' | hk' <;>
    obtain ⟨r, hr⟩ := singleton_isPrefixOf_iff.1 hk <;>
    obtain ⟨r', hr'⟩ := singleton_isPrefixOf_iff.1 hk'
  · rw [hr, hr'] at hdrop ⊢
    simp at hdrop
    rw [hdrop]
  · exfalso
    unfold is_key_person at h1
    rw [hpm, hr, hr'] at h1
    simp [List.isPrefixOf] at h1
  · exfalso
    unfold is_key_person at h1
    rw [hpm, hr, hr'] at h1
    simp [List.isPrefixOf] at h1
  · rw [hr, hr'] at hdrop ⊢
    simp at hdrop
    rw [hdrop]

theorem key_ne_of_nodup {α : Type} {m : List (String × α)} (h : (dictKeys m).Nodup)
    {p q : String × α} (hp : p ∈ m) (hq : q ∈ m) (hne : p ≠ q) : p.1 ≠ q.1 := by
  have hpw : m.Pairwise (fun a b => a.1 ≠ b.1) := by
    have hh := List.pairwise_map.1 h
    simpa using hh
  exact List.Pairwise.forall (fun _ _ hab => Ne.symm hab) hpw hp hq hne

theorem field_map_diff_shape {rec : String} {fa fb : FieldMap} {cs : Bool} {m : Message}
    (h : m ∈ field_map_diff rec fa fb cs) :
    ∃ c e t, m = make_diff_message c rec e t := by
  unfold field_map_diff at h
  rcases List.mem_append.1 h with h | h
  · obtain ⟨fv, hfv, hm⟩ := List.mem_flatMap.1 h
    unfold diff_one_field at hm
    split at hm
    next hget =>
      simp only [List.mem_singleton] at hm
      exact ⟨_, _, _, hm⟩
    next vb hget =>
      split at hm
      · simp only [List.mem_singleton] at hm
        exact ⟨_, _, _, hm⟩
      · simp at hm
  · obtain ⟨fv, hfv, hsome⟩ := List.mem_filterMap.1 h
    split at hsome
    · cases Option.some.inj hsome
      exact ⟨_, _, _, rfl⟩
    · cases hsome

theorem count_flatMap_one {α : Type} (l : List α) (g : α → List Message) (a : Message)
    (x : α) (hnd : l.Nodup) (hx : x ∈ l) (h1 : (g x).count a = 1)
    (h0 : ∀ y ∈ l, y ≠ x → (g y).count a = 0) :
    (l.flatMap g).count a = 1 := by
  induction l with
  | nil => cases hx
  | cons z rest ih =>
    rw [List.flatMap_cons, List.count_append]
    rcases List.mem_cons.1 hx with rfl | hx'
    · have hz : (rest.flatMap g).count a = 0 := by
        rw [List.count_eq_zero]
        intro hmem
        obtain ⟨y, hy, hay⟩ := List.mem_flatMap.1 hmem
        have hyx : y ≠ x := fun he => (List.nodup_cons.1 hnd).1 (he ▸ hy)
        have h := h0 y (List.mem_cons_of_mem _ hy) hyx
        rw [List.count_eq_zero] at h
        exact h hay
      rw [h1, hz]
    · have hz : z ≠ x := fun he => (List.nodup_cons.1 hnd).1 (he ▸ hx')
      rw [h0 z (List.mem_cons_self _ _) hz,
        ih (List.nodup_cons.1 hnd).2 hx' (fun y hy => h0 y (List.mem_cons_of_mem _ hy))]

theorem message_ne_of_category_ne {c c' : Category} {r r' : String} {e e' t t' : Option String}
    (h : c ≠ c') : make_diff_message c r e t ≠ make_diff_message c' r' e' t' := by
  intro he
  have h1 : c = c' := by
    rw [← make_diff_message_category c r e t, he, make_diff_message_category]
  exact h h1

theorem message_ne_of_tag_ne {c c' : Category} {r r' : String} {e e' t t' : Option String}
    (h : t ≠ t') : make_diff_message c r e t ≠ make_diff_message c' r' e' t' := by
  intro he
  have h1 : t = t' := by
    rw [← make_diff_message_xml_tag c r e t, he, make_diff_message_xml_tag]
  exact h h1

theorem field_map_diff_count_one {k : String} {fa fb : FieldMap} {cs : Bool}
    {f va vb : String} (hfa : (dictKeys fa).Nodup)
    (hva : dictGet fa f = some va) (hvb : dictGet fb f = some vb)
    (hne : fold_case cs va ≠ fold_case cs vb) :
    (field_map_diff k fa fb cs).count
      (make_diff_message .CHANGED_FIELD k
        (some (changed_payload (fold_case cs va) (fold_case cs vb))) (some f)) = 1 := by
  unfold field_map_diff
  rw [List.count_append]
  have hright : (fb.filterMap fun fv =>
      if dictGet fa fv.1 = none then
        some (make_diff_message .ADDED_FIELD k none (some fv.1))
      else none).count
      (make_diff_message .CHANGED_FIELD k
        (some (changed_payload (fold_case cs va) (fold_case cs vb))) (some f)) = 0 := by
    rw [List.count_eq_zero]
    intro hmem
    obtain ⟨fv, hfv, hsome⟩ := List.mem_filterMap.1 hmem
    split at hsome
    · exact message_ne_of_category_ne (by decide) (Option.some.inj hsome)
    · cases hsome
  rw [hright]
  have hleft := count_flatMap_one fa (diff_one_field k fb cs)
    (make_diff_message .CHANGED_FIELD k
      (some (changed_payload (fold_case cs va) (fold_case cs vb))) (some f))
    (f, va) (List.Nodup.of_map _ hfa) (dictGet_mem hva)
    (by
      unfold diff_one_field
      simp only [hvb]
      rw [if_pos hne]
      simp [List.count_cons])
    (by
      intro y hy hyx
      rw [List.count_eq_zero]
      intro hmem
      have hfy : y.1 ≠ f := key_ne_of_nodup hfa hy (dictGet_mem hva) hyx
      unfold diff_one_field at hmem
      split at hmem
      next hget =>
        simp only [List.mem_singleton] at hmem
        exact message_ne_of_category_ne (by decide) hmem.symm
      next vb' hget =>
        split at hmem
        · simp only [List.mem_singleton] at hmem
          exact message_ne_of_tag_ne
            (fun hc => hfy (Option.some.inj hc).symm) hmem
        · simp at hmem)
  rw [hleft]

/-- C2 counterexample: with case-insensitive comparison the source lowercases
the two values before the payload is built (lines 175-179), so the emitted
payload carries the folded values, not the originals that the claim
requires. -/
theorem changed_payload_folded_counterexample :
    pfif_obj_diff [("pP1", [("full_name", "Jane")])] [("pP1", [("full_name", "BOB")])]
        false =
      [make_diff_message .CHANGED_FIELD "pP1"
        (some (changed_payload "jane" "bob")) (some "full_name")] ∧
    ∀ m ∈ pfif_obj_diff [("pP1", [("full_name", "Jane")])]
        [("pP1", [("full_name", "BOB")])] false,
      m.extra_data ≠ some (changed_payload "Jane" "BOB") := by
  decide

/-- C2 amended: for a record key and a field present on both sides whose
values differ after the comparison fold, diff emits exactly one CHANGED_FIELD
message for that record and field, and its payload is built from the compared
values — the case-folded values when comparison is case-insensitive, not the
originals. -/
theorem changed_field_one_message_folded_payload (A B : RecordMap) (cs : Bool)
    (k f : String) (fa fb : FieldMap) (va vb : String)
    (hA : RecordMap.WF A) (hcanon : RecordMap.CanonicalKeys A)
    (hga : dictGet A k = some fa) (hgb : dictGet B k = some fb)
    (hva : dictGet fa f = some va) (hvb : dictGet fb f = some vb)
    (hne : fold_case cs va ≠ fold_case cs vb) :
    (pfif_obj_diff A B cs).count
      (make_diff_message .CHANGED_FIELD k
        (some (changed_payload (fold_case cs va) (fold_case cs vb))) (some f)) = 1 := by
  unfold pfif_obj_diff
  rw [List.count_append]
  have hright : (B.filterMap fun rf =>
      if dictGet A rf.1 = none then
        some (make_diff_message .ADDED_RECORD rf.1 none none)
      else none).count
      (make_diff_message .CHANGED_FIELD k
        (some (changed_payload (fold_case cs va) (fold_case cs vb))) (some f)) = 0 := by
    rw [List.count_eq_zero]
    intro hmem
    obtain ⟨rf, hrf, hsome⟩ := List.mem_filterMap.1 hmem
    split at hsome
    · exact message_ne_of_category_ne (by decide) (Option.some.inj hsome)
    · cases hsome
  rw [hright]
  have hleft := count_flatMap_one A (diff_one_record B cs)
    (make_diff_message .CHANGED_FIELD k
      (some (changed_payload (fold_case cs va) (fold_case cs vb))) (some f))
    (k, fa) (List.Nodup.of_map _ hA.1) (dictGet_mem hga)
    (by
      unfold diff_one_record
      simp only [hgb]
      exact field_map_diff_count_one (hA.2 (k, fa) (dictGet_mem hga)) hva hvb hne)
    (by
      intro y hy hyx
      rw [List.count_eq_zero]
      intro hmem
      have hky : y.1 ≠ k := key_ne_of_nodup hA.1 hy (dictGet_mem hga) hyx
      unfold diff_one_record at hmem
      split at hmem
      next hget =>
        simp only [List.mem_singleton] at hmem
        exact message_ne_of_category_ne (by decide) hmem.symm
      next fb' hget =>
        obtain ⟨c, e, t, hshape⟩ := field_map_diff_shape hmem
        have hcat := congrArg Message.category hshape
        rw [make_diff_message_category, make_diff_message_category] at hcat
        subst hcat
        obtain ⟨hk1, hk2, _, _⟩ := make_diff_message_eq_ext.1 hshape
        exact hky (canonical_key_inj (hcanon (k, fa) (dictGet_mem hga)) (hcanon y hy)
          hk1 hk2).symm)
  rw [hleft]

theorem changed_field_one_message_folded_payload_witness :
    RecordMap.WF [("pP1", [("full_name", "Jane")])] ∧
    RecordMap.CanonicalKeys [("pP1", [("full_name", "Jane")])] ∧
    fold_case false "Jane" ≠ fold_case false "BOB" ∧
    (pfif_obj_diff [("pP1", [("full_name", "Jane")])] [("pP1", [("full_name", "BOB")])]
        false).count
      (make_diff_message .CHANGED_FIELD "pP1"
        (some (changed_payload (fold_case false "Jane") (fold_case false "BOB")))
        (some "full_name")) = 1 :=
  ⟨by decide, by decide, by decide,
   changed_field_one_message_folded_payload [("pP1", [("full_name", "Jane")])]
     [("pP1", [("full_name", "BOB")])] false "pP1" "full_name"
     [("full_name", "Jane")] [("full_name", "BOB")] "Jane" "BOB"
     (by decide) (by decide) (by decide) (by decide) (by decide) (by decide) (by decide)⟩

theorem objectify_fields_cons (c : Node) (rest : List Node) (ip : Bool) (rm : FieldMap)
    (ig : List String) (ob : Bool) :
    objectify_fields (c :: rest) ip rm ig ob =
      objectify_fields rest ip (objectify_field_step ig ob ip rm c) ig ob := rfl

theorem objectify_fields_append (c1 c2 : List Node) (ip : Bool) (rm : FieldMap)
    (ig : List String) (ob : Bool) :
    objectify_fields (c1 ++ c2) ip rm ig ob =
      objectify_fields c2 ip (objectify_fields c1 ip rm ig ob) ig ob := by
  unfold objectify_fields
  rw [List.foldl_append]

theorem objectify_field_step_get_ne (ig : List String) (ob ip : Bool) (rm : FieldMap)
    (c : Node) (f : String) (h : c.tag ≠ f) :
    dictGet (objectify_field_step ig ob ip rm c) f = dictGet rm f := by
  show dictGet (if c.tag ∉ ig ∧ (ip = false ∨ c.tag ≠ "note") then
      (if (c.text.getD "") ≠ "" ∨ ob = false then dictInsert rm c.tag (c.text.getD "")
       else rm)
    else rm) f = dictGet rm f
  split
  · split
    · exact dictGet_dictInsert_ne _ _ _ _ (Ne.symm h)
    · rfl
  · rfl

theorem objectify_fields_get_of_no_tag (ip : Bool) (ig : List String) (ob : Bool)
    (f : String) : ∀ (children : List Node) (rm : FieldMap),
    (∀ c ∈ children, c.tag ≠ f) →
    dictGet (objectify_fields children ip rm ig ob) f = dictGet rm f := by
  intro children
  induction children with
  | nil => intro rm h; rfl
  | cons c rest ih =>
    intro rm h
    rw [objectify_fields_cons, ih _ (fun d hd => h d (List.mem_cons_of_mem _ hd)),
      objectify_field_step_get_ne _ _ _ _ _ _ (h c (List.mem_cons_self _ _))]

/-- C3 counterexample: two person records carrying the same identifier are
not resolved by record-level overwrite.  The source reuses the existing field
map (`setdefault`), so the second record's fields merge into the first
record's map and the first record's field `a` survives — the result is not
the later record's field map alone. -/
theorem duplicate_key_record_overwrite_counterexample :
    objectify_pfif_xml
        (Document.mk
          [Node.mk "person" none
            [Node.mk "person_record_id" (some "x") [], Node.mk "a" (some "1") []],
           Node.mk "person" none
            [Node.mk "person_record_id" (some "x") [], Node.mk "b" (some "2") []]]
          []) [] false =
      [("px", [("person_record_id", "x"), ("a", "1"), ("b", "2")])] ∧
    dictGet (objectify_pfif_xml
        (Document.mk
          [Node.mk "person" none
            [Node.mk "person_record_id" (some "x") [], Node.mk "a" (some "1") []],
           Node.mk "person" none
            [Node.mk "person_record_id" (some "x") [], Node.mk "b" (some "2") []]]
          []) [] false) "px" ≠
      some [("person_record_id", "x"), ("b", "2")] ∧
    dictGet ((dictGet (objectify_pfif_xml
        (Document.mk
          [Node.mk "person" none
            [Node.mk "person_record_id" (some "x") [], Node.mk "a" (some "1") []],
           Node.mk "person" none
            [Node.mk "person_record_id" (some "x") [], Node.mk "b" (some "2") []]]
          []) [] false) "px").getD []) "a" = some "1" := by
  decide

/-- C3 amended: when canonicalization meets the same composite key twice, the
later record is folded into the earlier record's field map field by field:
same-named fields are overwritten, the earlier record's other fields are
kept.  Stated for two note records sharing one identifier. -/
theorem duplicate_key_merges_fieldwise (n1 n2 : Node) (rid : String)
    (ig : List String) (ob : Bool)
    (h1 : get_field_text n1 "note_record_id" = some rid)
    (h2 : get_field_text n2 "note_record_id" = some rid) :
    (objectify_notes [n1, n2] (ObjState.mk [] []) none ig ob).object_map =
      [(record_id_to_key rid false,
        objectify_fields n2.children false
          (objectify_fields n1.children false [] ig ob) ig ob)] := by
  unfold objectify_notes
  rw [List.foldl_cons, List.foldl_cons, List.foldl_nil]
  unfold objectify_note
  rw [h1, h2]
  simp [dictGet, dictInsert]

theorem duplicate_key_merges_fieldwise_witness :
    get_field_text (Node.mk "note" none
      [Node.mk "note_record_id" (some "z") [], Node.mk "a" (some "1") []])
      "note_record_id" = some "z" ∧
    (objectify_notes
      [Node.mk "note" none
        [Node.mk "note_record_id" (some "z") [], Node.mk "a" (some "1") []],
       Node.mk "note" none
        [Node.mk "note_record_id" (some "z") [], Node.mk "b" (some "2") []]]
      (ObjState.mk [] []) none [] false).object_map =
      [(record_id_to_key "z" false,
        objectify_fields
          [Node.mk "note_record_id" (some "z") [], Node.mk "b" (some "2") []] false
          (objectify_fields
            [Node.mk "note_record_id" (some "z") [], Node.mk "a" (some "1") []] false
            [] [] false) [] false)] :=
  ⟨by decide,
   duplicate_key_merges_fieldwise
     (Node.mk "note" none
       [Node.mk "note_record_id" (some "z") [], Node.mk "a" (some "1") []])
     (Node.mk "note" none
       [Node.mk "note_record_id" (some "z") [], Node.mk "b" (some "2") []])
     "z" [] false (by decide) (by decide)⟩

/-- C9: a person or note node with no identifier field is not fatal: the
defect is pushed to the diagnostic output, the node contributes nothing to
the object map, and the remaining nodes before and after it are processed
exactly as they would be without it. -/
theorem missing_id_reported_and_skipped (pre post : List Node) (bad : Node)
    (isPerson : Bool) (st : ObjState) (ppri : Option String) (ig : List String)
    (ob : Bool) (hbad : get_field_text bad (record_id_tag isPerson) = none) :
    objectify_parents [bad] isPerson st ppri ig ob =
      ObjState.mk st.object_map (st.output ++ [missing_id_message isPerson]) ∧
    objectify_parents (pre ++ bad :: post) isPerson st ppri ig ob =
      objectify_parents post isPerson
        (ObjState.mk (objectify_parents pre isPerson st ppri ig ob).object_map
          ((objectify_parents pre isPerson st ppri ig ob).output ++
            [missing_id_message isPerson]))
        ppri ig ob := by
  cases isPerson
  · have hb : get_field_text bad "note_record_id" = none := hbad
    constructor
    · show objectify_notes [bad] st ppri ig ob = _
      unfold objectify_notes
      rw [List.foldl_cons, List.foldl_nil]
      unfold objectify_note
      rw [hb]
    · show objectify_notes (pre ++ bad :: post) st ppri ig ob = _
      unfold objectify_notes
      rw [List.foldl_append, List.foldl_cons]
      congr 1
      show objectify_note bad _ ppri ig ob = _
      unfold objectify_note
      rw [hb]
      rfl
  · have hb : get_field_text bad "person_record_id" = none := hbad
    constructor
    · show objectify_persons [bad] st ig ob = _
      unfold objectify_persons
      rw [List.foldl_cons, List.foldl_nil]
      unfold objectify_person
      rw [hb]
    · show objectify_persons (pre ++ bad :: post) st ig ob = _
      unfold objectify_persons
      rw [List.foldl_append, List.foldl_cons]
      congr 1
      show objectify_person bad _ ig ob = _
      unfold objectify_person
      rw [hb]
      rfl

theorem missing_id_reported_and_skipped_witness :
    get_field_text (Node.mk "person" none []) (record_id_tag true) = none ∧
    objectify_parents [Node.mk "person" none []] true (ObjState.mk [] []) none [] false =
      ObjState.mk [] ([] ++ [missing_id_message true]) :=
  ⟨by decide,
   (missing_id_reported_and_skipped [] [] (Node.mk "person" none []) true
     (ObjState.mk [] []) none [] false (by decide)).1⟩

/-- C10: when a nested note itself carries an explicit `person_record_id`
child with text v, the injected parent identifier is written first and the
child field loop runs afterwards, so the note's canonical field map carries
v, not the enclosing person's identifier. -/
theorem nested_note_explicit_person_id_wins (st : ObjState) (pid nid v : String)
    (pre post : List Node) (ig : List String) (ob : Bool)
    (hid : get_field_text
      (Node.mk "note" none (pre ++ Node.mk "person_record_id" (some v) [] :: post))
      "note_record_id" = some nid)
    (hpost : ∀ c ∈ post, c.tag ≠ "person_record_id")
    (hig : "person_record_id" ∉ ig)
    (hv : v ≠ "" ∨ ob = false) :
    ∃ fm,
      dictGet (objectify_note
          (Node.mk "note" none (pre ++ Node.mk "person_record_id" (some v) [] :: post))
          st (some pid) ig ob).object_map
        (record_id_to_key nid false) = some fm ∧
      dictGet fm "person_record_id" = some v := by
  unfold objectify_note
  rw [hid]
  refine ⟨_, dictGet_dictInsert_self .., ?_⟩
  show dictGet (objectify_fields (pre ++ Node.mk "person_record_id" (some v) [] :: post)
    false _ ig ob) "person_record_id" = some v
  rw [objectify_fields_append, objectify_fields_cons,
    objectify_fields_get_of_no_tag _ _ _ _ _ _ hpost]
  unfold objectify_field_step
  rw [if_pos ⟨hig, Or.inl rfl⟩]
  simp only [Node.text, Option.getD]
  rw [if_pos hv]
  exact dictGet_dictInsert_self ..

theorem nested_note_explicit_person_id_wins_witness :
    get_field_text
      (Node.mk "note" none
        ([Node.mk "note_record_id" (some "N") []] ++
          Node.mk "person_record_id" (some "Q") [] :: []))
      "note_record_id" = some "N" ∧
    ("Q" ≠ "" ∨ false = false) ∧
    ∃ fm,
      dictGet (objectify_note
          (Node.mk "note" none
            ([Node.mk "note_record_id" (some "N") []] ++
              Node.mk "person_record_id" (some "Q") [] :: []))
          (ObjState.mk [] []) (some "P") [] false).object_map
        (record_id_to_key "N" false) = some fm ∧
      dictGet fm "person_record_id" = some "Q" :=
  ⟨by decide, by decide,
   nested_note_explicit_person_id_wins (ObjState.mk [] []) "P" "N" "Q"
     [Node.mk "note_record_id" (some "N") []] [] [] false (by decide)
     (by decide) (by decide) (by decide)⟩

theorem objectify_field_step_not_ignored {ig : List String} {ob ip : Bool} {rm : FieldMap}
    {c : Node} {q : String × String} (h : q ∈ objectify_field_step ig ob ip rm c) :
    q ∈ rm ∨ q.1 ∉ ig := by
  have h' : q ∈ (if c.tag ∉ ig ∧ (ip = false ∨ c.tag ≠ "note") then
      (if (c.text.getD "") ≠ "" ∨ ob = false then dictInsert rm c.tag (c.text.getD "")
       else rm)
    else rm) := h
  split at h'
  next hc =>
    split at h'
    · rcases mem_dictInsert h' with h' | h'
      · exact Or.inl h'
      · right
        rw [h']
        exact hc.1
    · exact Or.inl h'
  next => exact Or.inl h'

theorem objectify_fields_not_ignored {ig : List String} {ob ip : Bool} :
    ∀ (children : List Node) (rm : FieldMap) (q : String × String),
    q ∈ objectify_fields children ip rm ig ob → q ∈ rm ∨ q.1 ∉ ig := by
  intro children
  induction children with
  | nil => exact fun rm q h => Or.inl h
  | cons c rest ih =>
    intro rm q h
    rw [objectify_fields_cons] at h
    rcases ih _ q h with h' | h'
    · exact objectify_field_step_not_ignored h'
    · exact Or.inr h'

/-- The ignored-fields invariant on a record map: no field map in it carries a
field name from `ig`. -/
def NoIgnored (ig : List String) (m : RecordMap) : Prop :=
  ∀ p ∈ m, ∀ q ∈ p.2, q.1 ∉ ig

theorem objectify_note_no_ignored {ig : List String} {ob : Bool} {n : Node} {st : ObjState}
    {ppri : Option String} (hst : NoIgnored ig st.object_map) :
    NoIgnored ig (objectify_note n st ppri ig ob).object_map := by
  unfold objectify_note
  split
  next => exact hst
  next rid hget =>
    intro p hp q hq
    rcases mem_dictInsert hp with hp | hp
    · exact hst p hp q hq
    · subst hp
      rcases objectify_fields_not_ignored _ _ q hq with hq' | hq'
      · have hrm1 : q ∈ (match ppri with
          | some pid =>
            if "person_record_id" ∉ ig then
              dictInsert ((dictGet st.object_map (record_id_to_key rid false)).getD [])
                "person_record_id" pid
            else (dictGet st.object_map (record_id_to_key rid false)).getD []
          | none => (dictGet st.object_map (record_id_to_key rid false)).getD []) := hq'
        have hrm0 : ∀ q' : String × String,
            q' ∈ (dictGet st.object_map (record_id_to_key rid false)).getD [] →
            q'.1 ∉ ig := by
          intro q' hq0
          rcases hg : dictGet st.object_map (record_id_to_key rid false) with _ | fm
          · rw [hg] at hq0
            cases hq0
          · rw [hg] at hq0
            exact hst _ (dictGet_mem hg) q' hq0
        split at hrm1
        next pid =>
          split at hrm1
          next hpr =>
            rcases mem_dictInsert hrm1 with h1 | h1
            · exact hrm0 q h1
            · rw [h1]
              exact hpr
          next => exact hrm0 q hrm1
        next => exact hrm0 q hrm1
      · exact hq'

theorem objectify_notes_no_ignored {ig : List String} {ob : Bool}
    {ppri : Option String} :
    ∀ (parents : List Node) (st : ObjState), NoIgnored ig st.object_map →
    NoIgnored ig (objectify_notes parents st ppri ig ob).object_map := by
  intro parents
  induction parents with
  | nil => exact fun st h => h
  | cons n rest ih =>
    intro st hst
    exact ih _ (objectify_note_no_ignored hst)

theorem objectify_person_no_ignored {ig : List String} {ob : Bool} {n : Node}
    {st : ObjState} (hst : NoIgnored ig st.object_map) :
    NoIgnored ig (objectify_person n st ig ob).object_map := by
  unfold objectify_person
  split
  next => exact hst
  next rid hget =>
    apply objectify_notes_no_ignored
    intro p hp q hq
    rcases mem_dictInsert hp with hp | hp
    · exact hst p hp q hq
    · subst hp
      rcases objectify_fields_not_ignored _ _ q hq with hq' | hq'
      · rcases hg : dictGet st.object_map (record_id_to_key rid true) with _ | fm
        · rw [hg] at hq'
          cases hq'
        · rw [hg] at hq'
          exact hst _ (dictGet_mem hg) q hq'
      · exact hq'

theorem objectify_persons_no_ignored {ig : List String} {ob : Bool} :
    ∀ (parents : List Node) (st : ObjState), NoIgnored ig st.object_map →
    NoIgnored ig (objectify_persons parents st ig ob).object_map := by
  intro parents
  induction parents with
  | nil => exact fun st h => h
  | cons n rest ih =>
    intro st hst
    exact ih _ (objectify_person_no_ignored hst)

theorem objectify_pfif_xml_no_ignored (doc : Document) (ig : List String) (ob : Bool) :
    NoIgnored ig (objectify_pfif_xml doc ig ob) := by
  unfold objectify_pfif_xml objectify_parents
  simp only [if_pos, if_neg, Bool.false_eq_true, if_false, if_true]
  apply objectify_notes_no_ignored
  show NoIgnored ig (objectify_persons doc.persons (ObjState.mk [] []) ig ob).object_map
  apply objectify_persons_no_ignored
  intro p hp
  cases hp

theorem field_map_diff_tag_source {rec : String} {fa fb : FieldMap} {cs : Bool}
    {m : Message} (hm : m ∈ field_map_diff rec fa fb cs) :
    (∃ q ∈ fa, m.xml_tag = some q.1) ∨ (∃ q ∈ fb, m.xml_tag = some q.1) := by
  unfold field_map_diff at hm
  rcases List.mem_append.1 hm with h | h
  · obtain ⟨fv, hfv, hmem⟩ := List.mem_flatMap.1 h
    left
    refine ⟨fv, hfv, ?_⟩
    unfold diff_one_field at hmem
    split at hmem
    next hget =>
      simp only [List.mem_singleton] at hmem
      rw [hmem, make_diff_message_xml_tag]
    next vb hget =>
      split at hmem
      · simp only [List.mem_singleton] at hmem
        rw [hmem, make_diff_message_xml_tag]
      · simp at hmem
  · obtain ⟨fv, hfv, hsome⟩ := List.mem_filterMap.1 h
    right
    refine ⟨fv, hfv, ?_⟩
    split at hsome
    · cases Option.some.inj hsome
      rw [make_diff_message_xml_tag]
    · cases hsome

theorem diff_tag_source {A B : RecordMap} {cs : Bool} {m : Message}
    (hm : m ∈ pfif_obj_diff A B cs) :
    m.xml_tag = none ∨
    (∃ p ∈ A, ∃ q ∈ p.2, m.xml_tag = some q.1) ∨
    (∃ p ∈ B, ∃ q ∈ p.2, m.xml_tag = some q.1) := by
  unfold pfif_obj_diff at hm
  rcases List.mem_append.1 hm with h | h
  · obtain ⟨rf, hrf, hmem⟩ := List.mem_flatMap.1 h
    unfold diff_one_record at hmem
    split at hmem
    next hget =>
      simp only [List.mem_singleton] at hmem
      rw [hmem, make_diff_message_xml_tag]
      exact Or.inl rfl
    next fb hget =>
      rcases field_map_diff_tag_source hmem with ⟨q, hq, htag⟩ | ⟨q, hq, htag⟩
      · exact Or.inr (Or.inl ⟨rf, hrf, q, hq, htag⟩)
      · exact Or.inr (Or.inr ⟨(rf.1, fb), dictGet_mem hget, q, hq, htag⟩)
  · obtain ⟨rf, hrf, hsome⟩ := List.mem_filterMap.1 h
    split at hsome
    · cases Option.some.inj hsome
      rw [make_diff_message_xml_tag]
      exact Or.inl rfl
    · cases hsome

/-- C8: a field name listed in `ignore_fields` is excluded from
canonicalization (including the nested-note `person_record_id` injection), so
no message of the file diff ever carries it as its field tag. -/
theorem ignored_field_never_in_messages (doc_a doc_b : Document) (cs : Bool)
    (ig : List String) (ob : Bool) (f : String) (hf : f ∈ ig) :
    ∀ m ∈ pfif_file_diff doc_a doc_b cs ig ob, m.xml_tag ≠ some f := by
  intro m hm hcon
  rcases diff_tag_source hm with h | ⟨p, hp, q, hq, htag⟩ | ⟨p, hp, q, hq, htag⟩
  · rw [hcon] at h
    cases h
  · rw [hcon] at htag
    cases Option.some.inj htag
    exact objectify_pfif_xml_no_ignored doc_a ig ob p hp q hq hf
  · rw [hcon] at htag
    cases Option.some.inj htag
    exact objectify_pfif_xml_no_ignored doc_b ig ob p hp q hq hf

theorem ignored_field_never_in_messages_witness :
    "photo_url" ∈ ["photo_url"] ∧
    ∀ m ∈ pfif_file_diff
      (Document.mk
        [Node.mk "person" none
          [Node.mk "person_record_id" (some "x") [],
           Node.mk "photo_url" (some "http") []]] [])
      (Document.mk
        [Node.mk "person" none [Node.mk "person_record_id" (some "x") []]] [])
      true ["photo_url"] false, m.xml_tag ≠ some "photo_url" :=
  ⟨by decide,
   ignored_field_never_in_messages
     (Document.mk
       [Node.mk "person" none
         [Node.mk "person_record_id" (some "x") [],
          Node.mk "photo_url" (some "http") []]] [])
     (Document.mk
       [Node.mk "person" none [Node.mk "person_record_id" (some "x") []]] [])
     true ["photo_url"] false "photo_url" (by decide)⟩

theorem objectify_field_step_keys {ig : List String} {ob ip : Bool} {rm : FieldMap}
    {c : Node} {k : String} (h : k ∈ dictKeys (objectify_field_step ig ob ip rm c)) :
    k ∈ dictKeys rm ∨ k = c.tag := by
  have h' : k ∈ dictKeys (if c.tag ∉ ig ∧ (ip = false ∨ c.tag ≠ "note") then
      (if (c.text.getD "") ≠ "" ∨ ob = false then dictInsert rm c.tag (c.text.getD "")
       else rm)
    else rm) := h
  split at h'
  · split at h'
    · exact mem_dictKeys_dictInsert.1 h'
    · exact Or.inl h'
  · exact Or.inl h'

theorem objectify_fields_keys {ig : List String} {ob ip : Bool} :
    ∀ (children : List Node) (rm : FieldMap) (k : String),
    k ∈ dictKeys (objectify_fields children ip rm ig ob) →
    k ∈ dictKeys rm ∨ k ∈ children.map Node.tag := by
  intro children
  induction children with
  | nil => exact fun rm k h => Or.inl h
  | cons c rest ih =>
    intro rm k h
    rw [objectify_fields_cons] at h
    rcases ih _ k h with h' | h'
    · rcases objectify_field_step_keys h' with h'' | h''
      · exact Or.inl h''
      · exact Or.inr (by simp [h''])
    · exact Or.inr (by simp [h'])

theorem objectify_field_step_nodup {ig : List String} {ob ip : Bool} {rm : FieldMap}
    {c : Node} (h : (dictKeys rm).Nodup) :
    (dictKeys (objectify_field_step ig ob ip rm c)).Nodup := by
  show (dictKeys (if c.tag ∉ ig ∧ (ip = false ∨ c.tag ≠ "note") then
      (if (c.text.getD "") ≠ "" ∨ ob = false then dictInsert rm c.tag (c.text.getD "")
       else rm)
    else rm)).Nodup
  split
  · split
    · exact nodup_dictKeys_dictInsert _ h
    · exact h
  · exact h

theorem objectify_fields_nodup {ig : List String} {ob ip : Bool} :
    ∀ (children : List Node) (rm : FieldMap), (dictKeys rm).Nodup →
    (dictKeys (objectify_fields children ip rm ig ob)).Nodup := by
  intro children
  induction children with
  | nil => exact fun rm h => h
  | cons c rest ih =>
    intro rm h
    rw [objectify_fields_cons]
    exact ih _ (objectify_field_step_nodup h)

theorem get_field_text_append (t : String) (x : Option String) (base more : List Node)
    (tag : String) (v : String)
    (h : get_field_text (Node.mk t x base) tag = some v) :
    get_field_text (Node.mk t x (base ++ more)) tag = some v := by
  unfold get_field_text at h ⊢
  simp only [Node.children] at h ⊢
  rcases hfind : base.find? (fun c => c.tag == tag) with _ | c
  · rw [hfind] at h
    cases h
  · rw [hfind] at h
    rw [List.find?_append, hfind]
    exact h

theorem objectify_single_top_note (children : List Node) (nid : String)
    (ig : List String) (ob : Bool)
    (hid : get_field_text (Node.mk "note" none children) "note_record_id" = some nid) :
    objectify_pfif_xml (Document.mk [] [Node.mk "note" none children]) ig ob =
      [(record_id_to_key nid false, objectify_fields children false [] ig ob)] := by
  show (objectify_notes [Node.mk "note" none children]
      (objectify_persons [] (ObjState.mk [] []) ig ob) none ig ob).object_map = _
  unfold objectify_persons objectify_notes
  rw [List.foldl_nil, List.foldl_cons, List.foldl_nil]
  unfold objectify_note
  rw [hid]
  simp [dictGet, dictInsert, Node.children]

theorem field_map_diff_extra_deleted (key f : String) (NF : FieldMap) (v : String)
    (cs : Bool) (hnd : (dictKeys NF).Nodup) (hf : f ∉ dictKeys NF) :
    field_map_diff key (NF ++ [(f, v)]) NF cs =
      [make_diff_message .DELETED_FIELD key none (some f)] := by
  unfold field_map_diff
  rw [List.flatMap_append]
  have h1 : NF.flatMap (diff_one_field key NF cs) = [] := by
    rw [List.flatMap_eq_nil_iff]
    intro fv hfv
    simp [diff_one_field, dictGet_of_mem_of_nodup hnd hfv]
  have h2 : [(f, v)].flatMap (diff_one_field key NF cs) =
      [make_diff_message .DELETED_FIELD key none (some f)] := by
    simp [diff_one_field, dictGet_eq_none_iff.2 hf]
  have h3 : NF.filterMap (fun fv =>
      if dictGet (NF ++ [(f, v)]) fv.1 = none then
        some (make_diff_message .ADDED_FIELD key none (some fv.1))
      else none) = [] := by
    rw [List.filterMap_eq_nil_iff]
    intro fv hfv
    simp [dictGet_append_left _ (dictGet_of_mem_of_nodup hnd hfv)]
  rw [h1, h2, h3]
  simp

theorem field_map_diff_extra_changed (key f : String) (NF : FieldMap) (v w : String)
    (cs : Bool) (hnd : (dictKeys NF).Nodup) (hf : f ∉ dictKeys NF)
    (hne : fold_case cs v ≠ fold_case cs w) :
    field_map_diff key (NF ++ [(f, v)]) (NF ++ [(f, w)]) cs =
      [make_diff_message .CHANGED_FIELD key
        (some (changed_payload (fold_case cs v) (fold_case cs w))) (some f)] := by
  unfold field_map_diff
  rw [List.flatMap_append, List.filterMap_append]
  have h1 : NF.flatMap (diff_one_field key (NF ++ [(f, w)]) cs) = [] := by
    rw [List.flatMap_eq_nil_iff]
    intro fv hfv
    simp [diff_one_field, dictGet_append_left _ (dictGet_of_mem_of_nodup hnd hfv)]
  have h2 : [(f, v)].flatMap (diff_one_field key (NF ++ [(f, w)]) cs) =
      [make_diff_message .CHANGED_FIELD key
        (some (changed_payload (fold_case cs v) (fold_case cs w))) (some f)] := by
    have hgw : dictGet (NF ++ [(f, w)]) f = some w := by
      rw [dictGet_append_right _ (dictGet_eq_none_iff.2 hf)]
      simp [dictGet]
    simp [diff_one_field, hgw, hne]
  have h3 : NF.filterMap (fun fv =>
      if dictGet (NF ++ [(f, v)]) fv.1 = none then
        some (make_diff_message .ADDED_FIELD key none (some fv.1))
      else none) = [] := by
    rw [List.filterMap_eq_nil_iff]
    intro fv hfv
    simp [dictGet_append_left _ (dictGet_of_mem_of_nodup hnd hfv)]
  have h4 : [(f, w)].filterMap (fun fv =>
      if dictGet (NF ++ [(f, v)]) fv.1 = none then
        some (make_diff_message .ADDED_FIELD key none (some fv.1))
      else none) = [] := by
    have hgv : dictGet (NF ++ [(f, v)]) f = some v := by
      rw [dictGet_append_right _ (dictGet_eq_none_iff.2 hf)]
      simp [dictGet]
    simp [hgv]
  rw [h1, h2, h3, h4]
  simp

theorem diff_extra_field_deleted (key f : String) (NF : FieldMap) (v : String) (cs : Bool)
    (hnd : (dictKeys NF).Nodup) (hf : f ∉ dictKeys NF) :
    pfif_obj_diff [(key, NF ++ [(f, v)])] [(key, NF)] cs =
      [make_diff_message .DELETED_FIELD key none (some f)] := by
  unfold pfif_obj_diff
  rw [List.flatMap_cons, List.flatMap_nil]
  unfold diff_one_record
  have hgB : dictGet [(key, NF)] key = some NF := by simp [dictGet]
  have hgA : dictGet [(key, NF ++ [(f, v)])] key = some (NF ++ [(f, v)]) := by
    simp [dictGet]
  simp only [hgB]
  rw [field_map_diff_extra_deleted key f NF v cs hnd hf]
  simp [hgA]

theorem diff_extra_field_changed (key f : String) (NF : FieldMap) (v w : String) (cs : Bool)
    (hnd : (dictKeys NF).Nodup) (hf : f ∉ dictKeys NF)
    (hne : fold_case cs v ≠ fold_case cs w) :
    pfif_obj_diff [(key, NF ++ [(f, v)])] [(key, NF ++ [(f, w)])] cs =
      [make_diff_message .CHANGED_FIELD key
        (some (changed_payload (fold_case cs v) (fold_case cs w))) (some f)] := by
  unfold pfif_obj_diff
  rw [List.flatMap_cons, List.flatMap_nil]
  unfold diff_one_record
  have hgB : dictGet [(key, NF ++ [(f, w)])] key = some (NF ++ [(f, w)]) := by
    simp [dictGet]
  have hgA : dictGet [(key, NF ++ [(f, v)])] key = some (NF ++ [(f, v)]) := by
    simp [dictGet]
  simp only [hgB]
  rw [field_map_diff_extra_changed key f NF v w cs hnd hf hne]
  simp [hgA]

/-- C7: a field that is blank in document A and absent in document B yields no
message at all when `omit_blank_fields` is set (the blank field is dropped
from A's canonical map, making the two maps equal), while with the flag off
the blank field is stored as the empty string and the same pair diffs to one
DELETED_FIELD message — or to one CHANGED_FIELD message when document B
instead carries the field with a value whose fold differs from the empty
string. -/
theorem omit_blank_fields_behavior (nid f : String) (base : List Node) (bt : Option String)
    (w : String) (cs : Bool)
    (hid : get_field_text (Node.mk "note" none base) "note_record_id" = some nid)
    (hfresh : ∀ c ∈ base, c.tag ≠ f)
    (hbt : bt.getD "" = "")
    (hw : fold_case cs "" ≠ fold_case cs w) :
    (objectify_pfif_xml
        (Document.mk [] [Node.mk "note" none (base ++ [Node.mk f bt []])]) [] true =
       objectify_pfif_xml (Document.mk [] [Node.mk "note" none base]) [] true ∧
     pfif_obj_diff
       (objectify_pfif_xml
         (Document.mk [] [Node.mk "note" none (base ++ [Node.mk f bt []])]) [] true)
       (objectify_pfif_xml (Document.mk [] [Node.mk "note" none base]) [] true) cs = []) ∧
    pfif_obj_diff
      (objectify_pfif_xml
        (Document.mk [] [Node.mk "note" none (base ++ [Node.mk f bt []])]) [] false)
      (objectify_pfif_xml (Document.mk [] [Node.mk "note" none base]) [] false) cs =
      [make_diff_message .DELETED_FIELD (record_id_to_key nid false) none (some f)] ∧
    pfif_obj_diff
      (objectify_pfif_xml
        (Document.mk [] [Node.mk "note" none (base ++ [Node.mk f bt []])]) [] false)
      (objectify_pfif_xml
        (Document.mk [] [Node.mk "note" none (base ++ [Node.mk f (some w) []])]) [] false)
      cs =
      [make_diff_message .CHANGED_FIELD (record_id_to_key nid false)
        (some (changed_payload (fold_case cs "") (fold_case cs w))) (some f)] := by
  have hidA : get_field_text (Node.mk "note" none (base ++ [Node.mk f bt []]))
      "note_record_id" = some nid :=
    get_field_text_append "note" none base [Node.mk f bt []] "note_record_id" nid hid
  have hidC : get_field_text (Node.mk "note" none (base ++ [Node.mk f (some w) []]))
      "note_record_id" = some nid :=
    get_field_text_append "note" none base [Node.mk f (some w) []] "note_record_id" nid hid
  have hkeysNF : ∀ ob : Bool, f ∉ dictKeys (objectify_fields base false [] [] ob) := by
    intro ob hmem
    rcases objectify_fields_keys base [] f hmem with h | h
    · simp [dictKeys] at h
    · obtain ⟨c, hc, htag⟩ := List.mem_map.1 h
      exact hfresh c hc htag
  have hndNF : ∀ ob : Bool, (dictKeys (objectify_fields base false [] [] ob)).Nodup := by
    intro ob
    exact objectify_fields_nodup base [] (by simp [dictKeys])
  have hstep_true : objectify_fields (base ++ [Node.mk f bt []]) false [] [] true =
      objectify_fields base false [] [] true := by
    rw [objectify_fields_append]
    show (if f ∉ ([] : List String) ∧ (false = false ∨ f ≠ "note") then
        (if (bt.getD "") ≠ "" ∨ true = false then
          dictInsert (objectify_fields base false [] [] true) f (bt.getD "")
         else objectify_fields base false [] [] true)
      else objectify_fields base false [] [] true) = objectify_fields base false [] [] true
    rw [if_pos ⟨by simp, Or.inl rfl⟩, hbt, if_neg]
    rintro (h | h)
    · exact h rfl
    · cases h
  have hstep_false : objectify_fields (base ++ [Node.mk f bt []]) false [] [] false =
      objectify_fields base false [] [] false ++ [(f, "")] := by
    rw [objectify_fields_append]
    show (if f ∉ ([] : List String) ∧ (false = false ∨ f ≠ "note") then
        (if (bt.getD "") ≠ "" ∨ false = false then
          dictInsert (objectify_fields base false [] [] false) f (bt.getD "")
         else objectify_fields base false [] [] false)
      else objectify_fields base false [] [] false) =
      objectify_fields base false [] [] false ++ [(f, "")]
    rw [if_pos ⟨by simp, Or.inl rfl⟩, hbt, if_pos (Or.inr rfl),
      dictInsert_eq_append _ (hkeysNF false)]
  have hstep_w : objectify_fields (base ++ [Node.mk f (some w) []]) false [] [] false =
      objectify_fields base false [] [] false ++ [(f, w)] := by
    rw [objectify_fields_append]
    show (if f ∉ ([] : List String) ∧ (false = false ∨ f ≠ "note") then
        (if w ≠ "" ∨ false = false then
          dictInsert (objectify_fields base false [] [] false) f w
         else objectify_fields base false [] [] false)
      else objectify_fields base false [] [] false) =
      objectify_fields base false [] [] false ++ [(f, w)]
    rw [if_pos ⟨by simp, Or.inl rfl⟩, if_pos (Or.inr rfl),
      dictInsert_eq_append _ (hkeysNF false)]
  have hMA := objectify_single_top_note (base ++ [Node.mk f bt []]) nid [] true hidA
  have hMB := objectify_single_top_note base nid [] true hid
  have hMA' := objectify_single_top_note (base ++ [Node.mk f bt []]) nid [] false hidA
  have hMB' := objectify_single_top_note base nid [] false hid
  have hMC' := objectify_single_top_note (base ++ [Node.mk f (some w) []]) nid [] false hidC
  refine ⟨⟨?_, ?_⟩, ?_, ?_⟩
  · rw [hMA, hMB, hstep_true]
  · rw [hMA, hMB, hstep_true]
    have hWF : RecordMap.WF
        [(record_id_to_key nid false, objectify_fields base false [] [] true)] := by
      constructor
      · simp [dictKeys]
      · intro p hp
        simp only [List.mem_singleton] at hp
        subst hp
        exact hndNF true
    exact diff_nil_of_equiv hWF (fun _ => Iff.rfl) (fun k fa fb h1 h2 => by
      rw [h1] at h2
      cases Option.some.inj h2
      exact fun _ => rfl)
  · rw [hMA', hMB', hstep_false]
    exact diff_extra_field_deleted _ f _ "" cs (hndNF false) (hkeysNF false)
  · rw [hMA', hMC', hstep_false, hstep_w]
    exact diff_extra_field_changed _ f _ "" w cs (hndNF false) (hkeysNF false) hw

theorem omit_blank_fields_behavior_witness :
    get_field_text (Node.mk "note" none [Node.mk "note_record_id" (some "N") []])
      "note_record_id" = some "N" ∧
    fold_case true "" ≠ fold_case true "x" ∧
    pfif_obj_diff
      (objectify_pfif_xml
        (Document.mk [] [Node.mk "note" none
          ([Node.mk "note_record_id" (some "N") []] ++ [Node.mk "note_text" none []])])
        [] true)
      (objectify_pfif_xml
        (Document.mk [] [Node.mk "note" none [Node.mk "note_record_id" (some "N") []]])
        [] true) true = [] ∧
    pfif_obj_diff
      (objectify_pfif_xml
        (Document.mk [] [Node.mk "note" none
          ([Node.mk "note_record_id" (some "N") []] ++ [Node.mk "note_text" none []])])
        [] false)
      (objectify_pfif_xml
        (Document.mk [] [Node.mk "note" none [Node.mk "note_record_id" (some "N") []]])
        [] false) true =
      [make_diff_message .DELETED_FIELD (record_id_to_key "N" false) none
        (some "note_text")] :=
  ⟨by decide, by decide,
   ((omit_blank_fields_behavior "N" "note_text"
     [Node.mk "note_record_id" (some "N") []] none "x" true (by decide) (by decide)
     (by decide) (by decide)).1).2,
   ((omit_blank_fields_behavior "N" "note_text"
     [Node.mk "note_record_id" (some "N") []] none "x" true (by decide) (by decide)
     (by decide) (by decide)).2).1⟩

theorem record_id_to_key_true_ne_false (s t : String) :
    record_id_to_key s true ≠ record_id_to_key t false := by
  intro h
  have hd : ("p" ++ s).data = ("n" ++ t).data := by
    simpa [record_id_to_key, PERSON_MARK, NOTE_MARK] using congrArg String.data h
  simp at hd

theorem objectify_field_step_cons_head (ig : List String) (ob ip : Bool) (k0 v0 : String)
    (rm : FieldMap) (c : Node) (h : c.tag ≠ k0) :
    objectify_field_step ig ob ip ((k0, v0) :: rm) c =
      (k0, v0) :: objectify_field_step ig ob ip rm c := by
  show (if c.tag ∉ ig ∧ (ip = false ∨ c.tag ≠ "note") then
      (if (c.text.getD "") ≠ "" ∨ ob = false then
        dictInsert ((k0, v0) :: rm) c.tag (c.text.getD "")
       else (k0, v0) :: rm)
    else (k0, v0) :: rm) =
    (k0, v0) :: (if c.tag ∉ ig ∧ (ip = false ∨ c.tag ≠ "note") then
      (if (c.text.getD "") ≠ "" ∨ ob = false then dictInsert rm c.tag (c.text.getD "")
       else rm)
    else rm)
  split
  · split
    · exact dictInsert_cons_ne rm k0 c.tag v0 (c.text.getD "") (Ne.symm h)
    · rfl
  · rfl

theorem objectify_fields_cons_head (ig : List String) (ob ip : Bool) (k0 v0 : String) :
    ∀ (children : List Node) (rm : FieldMap), (∀ c ∈ children, c.tag ≠ k0) →
    objectify_fields children ip ((k0, v0) :: rm) ig ob =
      (k0, v0) :: objectify_fields children ip rm ig ob := by
  intro children
  induction children with
  | nil => exact fun rm h => rfl
  | cons c rest ih =>
    intro rm h
    rw [objectify_fields_cons,
      objectify_field_step_cons_head ig ob ip k0 v0 rm c (h c (List.mem_cons_self _ _)),
      ih _ (fun d hd => h d (List.mem_cons_of_mem _ hd)), objectify_fields_cons]

theorem cons_append_equiv (k0 v0 : String) (NF : FieldMap) (hk : k0 ∉ dictKeys NF) :
    FieldMap.EquivGet ((k0, v0) :: NF) (NF ++ [(k0, v0)]) := by
  intro f
  by_cases hf : k0 = f
  · subst hf
    rw [dictGet_append_right _ (dictGet_eq_none_iff.2 hk)]
    simp [dictGet]
  · rcases hg : dictGet NF f with _ | v
    · rw [dictGet_append_right _ hg]
      simp [dictGet, hf, hg]
    · rw [dictGet_append_left _ hg]
      simp [dictGet, hf, hg]

theorem objectify_note_eq (n : Node) (st : ObjState) (ppri : Option String)
    (ig : List String) (ob : Bool) (nid : String)
    (hid : get_field_text n "note_record_id" = some nid) :
    objectify_note n st ppri ig ob =
      ObjState.mk
        (dictInsert st.object_map (record_id_to_key nid false)
          (objectify_fields n.children false
            (match ppri with
             | some pid =>
               if "person_record_id" ∉ ig then
                 dictInsert ((dictGet st.object_map (record_id_to_key nid false)).getD [])
                   "person_record_id" pid
               else (dictGet st.object_map (record_id_to_key nid false)).getD []
             | none => (dictGet st.object_map (record_id_to_key nid false)).getD []) ig ob))
        st.output := by
  unfold objectify_note
  rw [hid]

theorem objectify_person_eq (n : Node) (st : ObjState) (ig : List String) (ob : Bool)
    (pid : String) (hid : get_field_text n "person_record_id" = some pid) :
    objectify_person n st ig ob =
      objectify_notes (n.children.filter fun c => c.tag == "note")
        (ObjState.mk
          (dictInsert st.object_map (record_id_to_key pid true)
            (objectify_fields n.children true
              ((dictGet st.object_map (record_id_to_key pid true)).getD []) ig ob))
          st.output)
        (some pid) ig ob := by
  unfold objectify_person
  rw [hid]

theorem canonical_map_nested (pid nid : String) (pfields nfields : List Node)
    (hpid : get_field_text (Node.mk "person" none pfields) "person_record_id" = some pid)
    (hnid : get_field_text (Node.mk "note" none nfields) "note_record_id" = some nid)
    (hno_note : ∀ c ∈ pfields, c.tag ≠ "note")
    (hno_pr : ∀ c ∈ nfields, c.tag ≠ "person_record_id") :
    objectify_pfif_xml
      (Document.mk [Node.mk "person" none (pfields ++ [Node.mk "note" none nfields])] [])
      [] false =
    [(record_id_to_key pid true, objectify_fields pfields true [] [] false),
     (record_id_to_key nid false,
       ("person_record_id", pid) :: objectify_fields nfields false [] [] false)] := by
  have hpidA : get_field_text
      (Node.mk "person" none (pfields ++ [Node.mk "note" none nfields]))
      "person_record_id" = some pid :=
    get_field_text_append "person" none pfields [Node.mk "note" none nfields]
      "person_record_id" pid hpid
  have hfieldsA : objectify_fields (pfields ++ [Node.mk "note" none nfields]) true [] []
      false = objectify_fields pfields true [] [] false := by
    rw [objectify_fields_append]
    show (if "note" ∉ ([] : List String) ∧ (true = false ∨ "note" ≠ "note") then
        (if ((none : Option String).getD "") ≠ "" ∨ false = false then
          dictInsert (objectify_fields pfields true [] [] false) "note"
            ((none : Option String).getD "")
         else objectify_fields pfields true [] [] false)
      else objectify_fields pfields true [] [] false) =
      objectify_fields pfields true [] [] false
    rw [if_neg]
    rintro ⟨h1, h2 | h2⟩
    · cases h2
    · exact h2 rfl
  have hfilterA : (pfields ++ [Node.mk "note" none nfields]).filter
      (fun c => c.tag == "note") = [Node.mk "note" none nfields] := by
    rw [List.filter_append]
    have h1 : pfields.filter (fun c => c.tag == "note") = [] := by
      rw [List.filter_eq_nil_iff]
      intro c hc
      simp [hno_note c hc]
    rw [h1]
    simp [List.filter, Node.tag]
  show (objectify_persons
    [Node.mk "person" none (pfields ++ [Node.mk "note" none nfields])]
    (ObjState.mk [] []) [] false).object_map = _
  unfold objectify_persons
  rw [List.foldl_cons, List.foldl_nil, objectify_person_eq _ _ _ _ pid hpidA]
  simp only [Node.children, dictGet, Option.getD_none, dictInsert]
  rw [hfieldsA, hfilterA]
  unfold objectify_notes
  rw [List.foldl_cons, List.foldl_nil, objectify_note_eq _ _ _ _ _ nid hnid]
  simp only [Node.children]
  rw [show dictGet
      [(record_id_to_key pid true, objectify_fields pfields true [] [] false)]
      (record_id_to_key nid false) = none from by
    simp [dictGet, record_id_to_key_true_ne_false pid nid]]
  simp only [Option.getD_none]
  rw [if_pos (by simp : ("person_record_id" : String) ∉ ([] : List String))]
  simp only [dictInsert]
  rw [objectify_fields_cons_head [] false false "person_record_id" pid nfields [] hno_pr]
  rw [if_neg (record_id_to_key_true_ne_false pid nid)]

theorem canonical_map_toplevel (pid nid : String) (pfields nfields : List Node)
    (hpid : get_field_text (Node.mk "person" none pfields) "person_record_id" = some pid)
    (hnid : get_field_text (Node.mk "note" none nfields) "note_record_id" = some nid)
    (hno_note : ∀ c ∈ pfields, c.tag ≠ "note")
    (hno_pr : ∀ c ∈ nfields, c.tag ≠ "person_record_id") :
    objectify_pfif_xml
      (Document.mk [Node.mk "person" none pfields]
        [Node.mk "note" none (nfields ++ [Node.mk "person_record_id" (some pid) []])])
      [] false =
    [(record_id_to_key pid true, objectify_fields pfields true [] [] false),
     (record_id_to_key nid false,
       objectify_fields nfields false [] [] false ++ [("person_record_id", pid)])] := by
  have hnidC : get_field_text
      (Node.mk "note" none (nfields ++ [Node.mk "person_record_id" (some pid) []]))
      "note_record_id" = some nid :=
    get_field_text_append "note" none nfields [Node.mk "person_record_id" (some pid) []]
      "note_record_id" nid hnid
  have hprNF : "person_record_id" ∉ dictKeys (objectify_fields nfields false [] [] false) := by
    intro hmem
    rcases objectify_fields_keys nfields [] "person_record_id" hmem with h | h
    · simp [dictKeys] at h
    · obtain ⟨c, hc, htag⟩ := List.mem_map.1 h
      exact hno_pr c hc htag
  have hstep : objectify_fields (nfields ++ [Node.mk "person_record_id" (some pid) []])
      false [] [] false =
      objectify_fields nfields false [] [] false ++ [("person_record_id", pid)] := by
    rw [objectify_fields_append]
    show (if "person_record_id" ∉ ([] : List String) ∧
        (false = false ∨ "person_record_id" ≠ "note") then
        (if pid ≠ "" ∨ false = false then
          dictInsert (objectify_fields nfields false [] [] false) "person_record_id" pid
         else objectify_fields nfields false [] [] false)
      else objectify_fields nfields false [] [] false) =
      objectify_fields nfields false [] [] false ++ [("person_record_id", pid)]
    rw [if_pos ⟨by simp, Or.inl rfl⟩, if_pos (Or.inr rfl), dictInsert_eq_append _ hprNF]
  have hfilterB : pfields.filter (fun c => c.tag == "note") = [] := by
    rw [List.filter_eq_nil_iff]
    intro c hc
    simp [hno_note c hc]
  show (objectify_notes
      [Node.mk "note" none (nfields ++ [Node.mk "person_record_id" (some pid) []])]
      (objectify_persons [Node.mk "person" none pfields] (ObjState.mk [] []) [] false)
      none [] false).object_map = _
  have hS : objectify_persons [Node.mk "person" none pfields] (ObjState.mk [] []) [] false =
      ObjState.mk
        [(record_id_to_key pid true, objectify_fields pfields true [] [] false)] [] := by
    unfold objectify_persons
    rw [List.foldl_cons, List.foldl_nil, objectify_person_eq _ _ _ _ pid hpid]
    simp only [Node.children]
    rw [hfilterB]
    unfold objectify_notes
    rw [List.foldl_nil]
    simp only [dictGet, Option.getD_none, dictInsert]
  rw [hS]
  unfold objectify_notes
  rw [List.foldl_cons, List.foldl_nil, objectify_note_eq _ _ _ _ _ nid hnidC]
  simp only [Node.children]
  rw [show dictGet
      [(record_id_to_key pid true, objectify_fields pfields true [] [] false)]
      (record_id_to_key nid false) = none from by
    simp [dictGet, record_id_to_key_true_ne_false pid nid]]
  simp only [Option.getD_none]
  rw [hstep]
  simp only [dictInsert]
  rw [if_neg (record_id_to_key_true_ne_false pid nid)]

/-- C1: a note nested under its person without an explicit `person_record_id`
child, and the same note top-level with an explicit `person_record_id` field
naming that person, canonicalize to record maps that are equal as Python
dicts (same keys, same field lookups), so the diff of the two documents is
empty in both directions: the structural position of a note is erased by the
identifier injection. -/
theorem nested_note_position_erased (pid nid : String) (pfields nfields : List Node)
    (cs : Bool)
    (hpid : get_field_text (Node.mk "person" none pfields) "person_record_id" = some pid)
    (hnid : get_field_text (Node.mk "note" none nfields) "note_record_id" = some nid)
    (hno_note : ∀ c ∈ pfields, c.tag ≠ "note")
    (hno_pr : ∀ c ∈ nfields, c.tag ≠ "person_record_id") :
    RecordMap.EquivGet
      (objectify_pfif_xml
        (Document.mk
          [Node.mk "person" none (pfields ++ [Node.mk "note" none nfields])] []) [] false)
      (objectify_pfif_xml
        (Document.mk [Node.mk "person" none pfields]
          [Node.mk "note" none
            (nfields ++ [Node.mk "person_record_id" (some pid) []])]) [] false) ∧
    pfif_obj_diff
      (objectify_pfif_xml
        (Document.mk
          [Node.mk "person" none (pfields ++ [Node.mk "note" none nfields])] []) [] false)
      (objectify_pfif_xml
        (Document.mk [Node.mk "person" none pfields]
          [Node.mk "note" none
            (nfields ++ [Node.mk "person_record_id" (some pid) []])]) [] false) cs = [] ∧
    pfif_obj_diff
      (objectify_pfif_xml
        (Document.mk [Node.mk "person" none pfields]
          [Node.mk "note" none
            (nfields ++ [Node.mk "person_record_id" (some pid) []])]) [] false)
      (objectify_pfif_xml
        (Document.mk
          [Node.mk "person" none (pfields ++ [Node.mk "note" none nfields])] []) [] false)
      cs = [] := by
  rw [canonical_map_nested pid nid pfields nfields hpid hnid hno_note hno_pr,
    canonical_map_toplevel pid nid pfields nfields hpid hnid hno_note hno_pr]
  have hndNF : (dictKeys (objectify_fields nfields false [] [] false)).Nodup :=
    objectify_fields_nodup nfields [] (by simp [dictKeys])
  have hndPF : (dictKeys (objectify_fields pfields true [] [] false)).Nodup :=
    objectify_fields_nodup pfields [] (by simp [dictKeys])
  have hprNF : "person_record_id" ∉ dictKeys (objectify_fields nfields false [] [] false) := by
    intro hmem
    rcases objectify_fields_keys nfields [] "person_record_id" hmem with h | h
    · simp [dictKeys] at h
    · obtain ⟨c, hc, htag⟩ := List.mem_map.1 h
      exact hno_pr c hc htag
  have hkeyne := record_id_to_key_true_ne_false pid nid
  have hequivN : FieldMap.EquivGet
      (("person_record_id", pid) :: objectify_fields nfields false [] [] false)
      (objectify_fields nfields false [] [] false ++ [("person_record_id", pid)]) :=
    cons_append_equiv _ _ _ hprNF
  have hEq : RecordMap.EquivGet
      [(record_id_to_key pid true, objectify_fields pfields true [] [] false),
       (record_id_to_key nid false,
         ("person_record_id", pid) :: objectify_fields nfields false [] [] false)]
      [(record_id_to_key pid true, objectify_fields pfields true [] [] false),
       (record_id_to_key nid false,
         objectify_fields nfields false [] [] false ++ [("person_record_id", pid)])] := by
    intro k
    by_cases hk1 : record_id_to_key pid true = k
    · exact Or.inr ⟨objectify_fields pfields true [] [] false,
        objectify_fields pfields true [] [] false,
        by simp [dictGet, hk1], by simp [dictGet, hk1], fun f => rfl⟩
    · by_cases hk2 : record_id_to_key nid false = k
      · refine Or.inr ⟨_, _, ?_, ?_, hequivN⟩
        · simp [dictGet, hk1, hk2]
        · simp [dictGet, hk1, hk2]
      · refine Or.inl ⟨?_, ?_⟩ <;> simp [dictGet, hk1, hk2]
  have hWF1 : RecordMap.WF
      [(record_id_to_key pid true, objectify_fields pfields true [] [] false),
       (record_id_to_key nid false,
         ("person_record_id", pid) :: objectify_fields nfields false [] [] false)] := by
    constructor
    · simp [dictKeys, hkeyne]
    · intro p hp
      rcases List.mem_cons.1 hp with h | h
      · subst h
        exact hndPF
      · obtain rfl := List.mem_singleton.1 h
        show (dictKeys (("person_record_id", pid) ::
          objectify_fields nfields false [] [] false)).Nodup
        rw [dictKeys_cons, List.nodup_cons]
        exact ⟨hprNF, hndNF⟩
  have hWF2 : RecordMap.WF
      [(record_id_to_key pid true, objectify_fields pfields true [] [] false),
       (record_id_to_key nid false,
         objectify_fields nfields false [] [] false ++ [("person_record_id", pid)])] := by
    constructor
    · simp [dictKeys, hkeyne]
    · intro p hp
      rcases List.mem_cons.1 hp with h | h
      · subst h
        exact hndPF
      · obtain rfl := List.mem_singleton.1 h
        show (dictKeys (objectify_fields nfields false [] [] false ++
          [("person_record_id", pid)])).Nodup
        simp only [dictKeys, List.map_append]
        rw [List.nodup_append]
        refine ⟨hndNF, by simp, ?_⟩
        intro a ha hb
        simp at hb
        subst hb
        exact hprNF ha
  have hEq' : RecordMap.EquivGet
      [(record_id_to_key pid true, objectify_fields pfields true [] [] false),
       (record_id_to_key nid false,
         objectify_fields nfields false [] [] false ++ [("person_record_id", pid)])]
      [(record_id_to_key pid true, objectify_fields pfields true [] [] false),
       (record_id_to_key nid false,
         ("person_record_id", pid) :: objectify_fields nfields false [] [] false)] := by
    intro k
    rcases hEq k with ⟨ha, hb⟩ | ⟨f1, f2, ha, hb, hfeq⟩
    · exact Or.inl ⟨hb, ha⟩
    · exact Or.inr ⟨f2, f1, hb, ha, fun f => (hfeq f).symm⟩
  refine ⟨hEq, ?_, ?_⟩
  · refine diff_nil_of_equiv hWF1 ?_ ?_
    · exact fun _ => Iff.rfl
    · intro k fa fb h1 h2
      rcases hEq k with ⟨ha, hb⟩ | ⟨f1, f2, ha, hb, hfeq⟩
      · rw [ha] at h1
        cases h1
      · rw [ha] at h1
        cases Option.some.inj h1
        rw [hb] at h2
        cases Option.some.inj h2
        exact hfeq
  · refine diff_nil_of_equiv hWF2 ?_ ?_
    · exact fun _ => Iff.rfl
    · intro k fa fb h1 h2
      rcases hEq' k with ⟨ha, hb⟩ | ⟨f1, f2, ha, hb, hfeq⟩
      · rw [ha] at h1
        cases h1
      · rw [ha] at h1
        cases Option.some.inj h1
        rw [hb] at h2
        cases Option.some.inj h2
        exact hfeq

theorem nested_note_position_erased_witness :
    get_field_text (Node.mk "person" none [Node.mk "person_record_id" (some "P") []])
      "person_record_id" = some "P" ∧
    get_field_text (Node.mk "note" none [Node.mk "note_record_id" (some "N") []])
      "note_record_id" = some "N" ∧
    pfif_obj_diff
      (objectify_pfif_xml
        (Document.mk
          [Node.mk "person" none
            ([Node.mk "person_record_id" (some "P") []] ++
              [Node.mk "note" none [Node.mk "note_record_id" (some "N") []]])] [])
        [] false)
      (objectify_pfif_xml
        (Document.mk [Node.mk "person" none [Node.mk "person_record_id" (some "P") []]]
          [Node.mk "note" none
            ([Node.mk "note_record_id" (some "N") []] ++
              [Node.mk "person_record_id" (some "P") []])]) [] false) true = [] :=
  ⟨by decide, by decide,
   ((nested_note_position_erased "P" "N" [Node.mk "person_record_id" (some "P") []]
     [Node.mk "note_record_id" (some "N") []] true (by decide) (by decide)
     (by decide) (by decide)).2).1⟩

end PfifDiff
